import Mathlib

/-
Verification of create_project.py (a project-scaffolding CLI).

The development embeds the program shallowly:

 * the regular expression on lines 19-21 of the source,
     (git@|https://)[\w@-]*\.(com|org)[/:][-\w/]+/([\w-]+)\.git
   (the third character class is written with the hyphen last in the
   source; it is reordered in this comment only, to avoid comment
   delimiter characters) is embedded as a data structure (a list of pattern items) together with
   a backtracking matcher that follows the semantics of CPython's re
   engine for exactly the constructs that appear in this pattern:
   anchored prefix matching (re.match), left-to-right alternation with
   backtracking, greedy single-character-class star and plus with
   backtracking, and one capturing group of interest (group 3).
   The character class \w is modelled as ASCII [A-Za-z0-9_].
 * the filesystem operations (mkdir(exist_ok=True), Path.touch,
   create_file) act on a map from paths (lists of components, relative
   to the working directory) to entries; mkdir on an existing file
   raises, which is modelled with Except.
 * main is embedded as a pure function from (cli name, tests flag,
   initial filesystem) to a record holding the clone commands issued
   before scaffolding, the derived project name and folder, the
   filesystem after scaffolding, and the command list handed to
   run_commands.  The effects of the external commands themselves
   (git, wget) on the filesystem are outside the program and are not
   modelled.
 * run_commands is embedded relative to an oracle describing how each
   spawned process behaves (found or not, return code, duration); the
   runner applies subprocess.run(check=True, timeout=60) semantics.
   Python's bare sys.exit() terminates the process with exit status 0,
   which the model records as exitCode = some 0.
-/

/-- Pattern items: the regex constructs that occur in repository_url_regex.
str is a literal string, alts an alternation of literal strings, cls a
single character from a class, starCls and plusCls greedy star and plus
over a character class, grpPlusCls a greedy capturing plus over a class
(group 3 of the source pattern). -/
inductive Pat where
  | str (l : List Char)
  | alts (ls : List (List Char))
  | cls (p : Char → Bool)
  | starCls (p : Char → Bool)
  | plusCls (p : Char → Bool)
  | grpPlusCls (p : Char → Bool)

/-- Length of the longest prefix of a string consisting of characters of a
class; a greedy quantifier first consumes this many characters. -/
def countLeading (p : Char → Bool) : List Char → Nat
  | [] => 0
  | c :: cs => if p c then countLeading p cs + 1 else 0

/-- Try the alternatives of an alternation left to right; on each literal
alternative that is a prefix, run the continuation f on the remaining
input, and fall through to the next alternative if it fails. -/
def tryAlts (f : List Char → Option (Option (List Char))) :
    List (List Char) → List Char → Option (Option (List Char))
  | [], _ => none
  | l :: ls, cs =>
    if l.isPrefixOf cs then
      match f (cs.drop l.length) with
      | some r => some r
      | none => tryAlts f ls cs
    else tryAlts f ls cs

/-- Backtracking loop of a greedy quantifier: try consuming lo + m
characters, then lo + m - 1, ..., down to lo, running the continuation f
on the rest each time and returning the first success. -/
def tryFrom (f : List Char → Option (Option (List Char))) (cs : List Char)
    (lo : Nat) : Nat → Option (Option (List Char))
  | 0 => f (cs.drop lo)
  | i + 1 =>
    match f (cs.drop (lo + i + 1)) with
    | some r => some r
    | none => tryFrom f cs lo i

/-- Backtracking loop of the greedy capturing plus: try consuming m + 1
characters down to 1; on the first success the consumed prefix is the
captured group. -/
def tryGrpFrom (f : List Char → Option (Option (List Char))) (cs : List Char) :
    Nat → Option (Option (List Char))
  | 0 =>
    match f (cs.drop 1) with
    | some _ => some (some (cs.take 1))
    | none => none
  | i + 1 =>
    match f (cs.drop (i + 2)) with
    | some _ => some (some (cs.take (i + 2)))
    | none => tryGrpFrom f cs i

/-- The backtracking matcher, anchored at the start of the input
(re.match semantics: a match is a prefix match, trailing input is
ignored).  The result is none when no prefix of the input matches the
whole pattern list, and some r when one does, where r is the content of
the capturing group (none if the pattern list holds no group). -/
def mm : List Pat → List Char → Option (Option (List Char))
  | [], _ => some none
  | Pat.str l :: ps, cs =>
    if l.isPrefixOf cs then mm ps (cs.drop l.length) else none
  | Pat.alts ls :: ps, cs => tryAlts (fun t => mm ps t) ls cs
  | Pat.cls p :: ps, cs =>
    match cs with
    | [] => none
    | c :: t => if p c then mm ps t else none
  | Pat.starCls p :: ps, cs => tryFrom (fun t => mm ps t) cs 0 (countLeading p cs)
  | Pat.plusCls p :: ps, cs =>
    let n := countLeading p cs
    if n = 0 then none else tryFrom (fun t => mm ps t) cs 1 (n - 1)
  | Pat.grpPlusCls p :: ps, cs =>
    let n := countLeading p cs
    if n = 0 then none else tryGrpFrom (fun t => mm ps t) cs (n - 1)

/-- The character class \w of the source pattern (ASCII model). -/
def wordChar (c : Char) : Bool := c.isAlphanum || c == '_'

/-- The character class [\w@-] (host part of the pattern). -/
def hostChar (c : Char) : Bool := wordChar c || c == '@' || c == '-'

/-- The character class of word characters, slash and hyphen (path part
of the pattern). -/
def pathChar (c : Char) : Bool := wordChar c || c == '/' || c == '-'

/-- The character class [\w-] (repository-name part of the pattern,
group 3). -/
def nameChar (c : Char) : Bool := wordChar c || c == '-'

/-- The pattern of create_project.py lines 19-21:
(git@|https://)[\w@-]*\.(com|org)[/:][-\w/]+/([\w-]+)\.git
(third class reordered in this comment; see the header comment). -/
def repository_url_regex : List Pat :=
  [Pat.alts ["git@".data, "https://".data],
   Pat.starCls hostChar,
   Pat.str ['.'],
   Pat.alts ["com".data, "org".data],
   Pat.cls (fun c => c == '/' || c == ':'),
   Pat.plusCls pathChar,
   Pat.str ['/'],
   Pat.grpPlusCls nameChar,
   Pat.str ".git".data]

/-- is_repository_url of the source (lines 31-44): match the input
against repository_url_regex; on a match return group 3 (the repository
name), else None. -/
def is_repository_url (string : String) : Option String :=
  match mm repository_url_regex string.data with
  | some (some g) => some (String.mk g)
  | _ => none

/-- A filesystem entry: a regular file with its content, or a directory. -/
inductive Entry where
  | file (content : String)
  | dir
deriving DecidableEq

/-- The filesystem tree under the current working directory, as a map
from paths (lists of components relative to the working directory) to
entries.  Path().absolute() / name of the source becomes the path
[name]. -/
abbrev FS : Type := List String → Option Entry

/-- Update one path of a filesystem. -/
def FS.set (fs : FS) (p : List String) (e : Entry) : FS :=
  fun q => if q = p then some e else fs q

/-- The empty working directory. -/
def emptyFS : FS := fun _ => none

/-- Path.mkdir(exist_ok=True): create a directory; succeed without
change if a directory is already there; raise FileExistsError if a
regular file occupies the path. -/
def mkdir_exist_ok (fs : FS) (p : List String) : Except String FS :=
  match fs p with
  | some Entry.dir => Except.ok fs
  | some (Entry.file _) => Except.error "FileExistsError"
  | none => Except.ok (FS.set fs p Entry.dir)

/-- Path.touch(): create an empty file if the path is absent; an
existing entry is left unchanged (only its modification time is
updated, which the model does not track). -/
def touch (fs : FS) (p : List String) : FS :=
  match fs p with
  | some _ => fs
  | none => FS.set fs p (Entry.file "")

/-- create_file of the source (lines 47-60): if no entry exists at
path/filename and the content string is truthy (non-empty), write the
file; otherwise do nothing. -/
def create_file (fs : FS) (path : List String) (filename : String)
    (content : String) : FS :=
  if (fs (path ++ [filename])).isSome then fs
  else if content = "" then fs
  else FS.set fs (path ++ [filename]) (Entry.file content)

/-- The filesystem portion of main (lines 105-114): ensure the project
folder, touch requirements.txt, create requirements-dev.txt and
README.md if absent, and, when the tests flag is set, create the tests
directory with its __init__.py marker. -/
def scaffold (name : String) (tests : Bool) (fs0 : FS) : Except String FS :=
  match mkdir_exist_ok fs0 [name] with
  | Except.error e => Except.error e
  | Except.ok fs1 =>
    let fs2 := touch fs1 [name, "requirements.txt"]
    let fs3 := create_file fs2 [name] "requirements-dev.txt" "pre-commit"
    let fs4 := create_file fs3 [name] "README.md" ("# " ++ name ++ "\n")
    if tests then
      match mkdir_exist_ok fs4 [name, "tests"] with
      | Except.error e => Except.error e
      | Except.ok fs5 => Except.ok (touch fs5 [name, "tests", "__init__.py"])
    else
      Except.ok fs4

/-- An argument of an external command: a plain string, or the project
folder Path object that the source puts directly into the argument
lists. -/
inductive Arg where
  | s (v : String)
  | p (path : List String)
deriving DecidableEq

/-- The fixed remote base URL the config files are fetched from
(source lines 13-17). -/
def url : String :=
  "https://gist.githubusercontent.com/vyhuholl/2c406f2b2509a15467a78d73f9aabead/raw/d974cb4bc790ae3107f62bdd0a7449763a1fd63b/"

/-- The fixed ordered list of config filenames (source lines 23-28). -/
def CONFIG_FILES : List String :=
  [".flake8", ".gitignore", ".pre-commit-config.yaml", "pyproject.toml"]

/-- wget -P project_folder url+filename (source line 120). -/
def wgetCmd (folder : List String) (filename : String) : List Arg :=
  [Arg.s "wget", Arg.s "-P", Arg.p folder, Arg.s (url ++ filename)]

/-- git -C project_folder init b master (source line 123). -/
def initCmd (folder : List String) : List Arg :=
  [Arg.s "git", Arg.s "-C", Arg.p folder, Arg.s "init", Arg.s "b", Arg.s "master"]

/-- git -C project_folder add . (source line 126). -/
def addCmd (folder : List String) : List Arg :=
  [Arg.s "git", Arg.s "-C", Arg.p folder, Arg.s "add", Arg.s "."]

/-- git -C project_folder commit -m "Initial commit" (source line 127). -/
def commitCmd (folder : List String) : List Arg :=
  [Arg.s "git", Arg.s "-C", Arg.p folder, Arg.s "commit", Arg.s "-m",
   Arg.s "Initial commit"]

/-- git -C project_folder push (source line 131). -/
def pushCmd (folder : List String) : List Arg :=
  [Arg.s "git", Arg.s "-C", Arg.p folder, Arg.s "push"]

/-- The command-list builder (source lines 116-131): one wget per config
file absent from the project folder, iterating CONFIG_FILES in order;
then git init if the input was not a URL; then add and commit; then
push if the input was a URL. -/
def buildCommands (isUrl : Bool) (folder : List String) (fs : FS) :
    List (List Arg) :=
  let cmds : List (List Arg) :=
    CONFIG_FILES.foldl
      (fun acc filename =>
        if (fs (folder ++ [filename])).isSome then acc
        else acc ++ [wgetCmd folder filename]) []
  let cmds := if !isUrl then cmds ++ [initCmd folder] else cmds
  let cmds := cmds ++ [addCmd folder, commitCmd folder]
  if isUrl then cmds ++ [pushCmd folder] else cmds

/-- The observable outcome of one invocation of main: the clone
commands run (through run_commands) before scaffolding, the project
name after URL parsing, the project folder, the filesystem after
scaffolding, and the command list handed to the final run_commands
call.  What the external commands themselves do to the filesystem is
outside the program and not modelled. -/
structure MainResult where
  cloneCommands : List (List Arg)
  projectName : String
  projectFolder : List String
  fs : FS
  commands : List (List Arg)

/-- main of the source (lines 91-133) as a pure function of the cli
name, the tests flag and the initial filesystem. -/
def CreateProject.main (name0 : String) (tests : Bool) (fs0 : FS) :
    Except String MainResult :=
  let isUrl := is_repository_url name0
  let cloneCommands : List (List Arg) :=
    match isUrl with
    | some _ => [[Arg.s "git", Arg.s "clone", Arg.s name0]]
    | none => []
  let name : String :=
    match isUrl with
    | some rn => rn
    | none => name0
  (scaffold name tests fs0).map (fun fs5 =>
    { cloneCommands := cloneCommands
      projectName := name
      projectFolder := [name]
      fs := fs5
      commands := buildCommands isUrl.isSome [name] fs5 })

/-- How one spawned process behaves: whether the executable exists,
its return code, and how long it runs (in the units of the timeout
argument of subprocess.run). -/
structure ProcBehavior where
  found : Bool
  returncode : Int
  duration : Nat

/-- Outcome of subprocess.run(command, check=True, timeout=limit). -/
inductive CmdOutcome where
  | ok
  | notFound
  | nonSuccess
  | timedOut
deriving DecidableEq

/-- subprocess.run(check=True, timeout=limit) semantics over a process
behavior: FileNotFoundError if the executable is absent,
TimeoutExpired if the duration exceeds the limit, CalledProcessError
on a non-zero return code, and normal return otherwise. -/
def runOne (limit : Nat) (b : ProcBehavior) : CmdOutcome :=
  if !b.found then CmdOutcome.notFound
  else if limit < b.duration then CmdOutcome.timedOut
  else if b.returncode = 0 then CmdOutcome.ok
  else CmdOutcome.nonSuccess

/-- A printed diagnostic; each message of run_commands names the
offending command (the f-strings of source lines 75-87). -/
inductive Diag where
  | notFound (cmd : List Arg)
  | nonSuccess (cmd : List Arg)
  | timedOut (cmd : List Arg)
deriving DecidableEq

/-- The command a diagnostic names. -/
def Diag.cmd : Diag → List Arg
  | Diag.notFound c => c
  | Diag.nonSuccess c => c
  | Diag.timedOut c => c

/-- The observable outcome of run_commands: which commands were
started, in order; what was printed; and whether the process was
terminated by sys.exit (exitCode = some c with exit status c) or the
function returned normally (exitCode = none).  Python's bare
sys.exit() call exits the process with status 0. -/
structure RunResult where
  attempted : List (List Arg)
  printed : List Diag
  exitCode : Option Nat
deriving DecidableEq

/-- run_commands of the source (lines 63-88), relative to an oracle
exec describing the behavior of each spawned process: run the commands
in order with a timeout of 60; on the first failure of any kind print
a diagnostic naming the command and exit the process (sys.exit with no
argument: exit status 0). -/
def run_commands (exec : List Arg → ProcBehavior) :
    List (List Arg) → RunResult
  | [] => { attempted := [], printed := [], exitCode := none }
  | c :: cs =>
    match runOne 60 (exec c) with
    | CmdOutcome.ok =>
      let r := run_commands exec cs
      { attempted := c :: r.attempted, printed := r.printed,
        exitCode := r.exitCode }
    | CmdOutcome.notFound =>
      { attempted := [c], printed := [Diag.notFound c], exitCode := some 0 }
    | CmdOutcome.nonSuccess =>
      { attempted := [c], printed := [Diag.nonSuccess c], exitCode := some 0 }
    | CmdOutcome.timedOut =>
      { attempted := [c], printed := [Diag.timedOut c], exitCode := some 0 }

/-- Declarative reading of a pattern list: Chain ps cs r holds when cs
splits into consecutive pieces matched by the items of ps (any leftover
after the last item is unconstrained), with r the captured group. -/
def Chain : List Pat → List Char → Option (List Char) → Prop
  | [], _, r => r = none
  | Pat.str l :: ps, cs, r => ∃ t, cs = l ++ t ∧ Chain ps t r
  | Pat.alts ls :: ps, cs, r => ∃ l, l ∈ ls ∧ ∃ t, cs = l ++ t ∧ Chain ps t r
  | Pat.cls p :: ps, cs, r => ∃ c t, cs = c :: t ∧ p c = true ∧ Chain ps t r
  | Pat.starCls p :: ps, cs, r =>
      ∃ u t, cs = u ++ t ∧ (∀ c ∈ u, p c = true) ∧ Chain ps t r
  | Pat.plusCls p :: ps, cs, r =>
      ∃ u t, cs = u ++ t ∧ u ≠ [] ∧ (∀ c ∈ u, p c = true) ∧ Chain ps t r
  | Pat.grpPlusCls p :: ps, cs, r =>
      ∃ u t r2, cs = u ++ t ∧ u ≠ [] ∧ (∀ c ∈ u, p c = true) ∧
        Chain ps t r2 ∧ r = some u

/-- The spec-side repository-URL shape, written after section 4.1 of the
specification: protocol prefix, host of word, at-sign and hyphen
characters, dot, com or org, slash or colon, a non-empty path part, a
slash, a non-empty repository name, ".git", then anything. -/
def SpecMatches (s : String) : Prop :=
  ∃ p h tld sep mid nm rest,
    (p = "git@".data ∨ p = "https://".data) ∧
    (∀ c ∈ h, hostChar c = true) ∧
    (tld = "com".data ∨ tld = "org".data) ∧
    (sep = '/' ∨ sep = ':') ∧
    mid ≠ [] ∧ (∀ c ∈ mid, pathChar c = true) ∧
    nm ≠ [] ∧ (∀ c ∈ nm, nameChar c = true) ∧
    s.data = p ++ h ++ '.' :: tld ++ sep :: mid ++ '/' :: nm ++ '.' :: 'g' :: 'i' :: 't' :: rest

def demoG : FS :=
  FS.set (FS.set (FS.set (FS.set emptyFS ["myproj"] Entry.dir)
    ["myproj", "requirements.txt"] (Entry.file ""))
    ["myproj", "requirements-dev.txt"] (Entry.file "pre-commit"))
    ["myproj", "README.md"] (Entry.file "# myproj\n")

/-- An oracle under which the commit command fails with a non-zero
return code and every other command succeeds. -/
def commitFailExec : List Arg → ProcBehavior :=
  fun cmd =>
    if cmd = commitCmd ["myproj"] then
      { found := true, returncode := 1, duration := 0 }
    else
      { found := true, returncode := 0, duration := 0 }

/-- An oracle under which every command fails with return code 1. -/
def failExec : List Arg → ProcBehavior :=
  fun _ => { found := true, returncode := 1, duration := 0 }

/-- An oracle under which every command succeeds. -/
def okExec : List Arg → ProcBehavior :=
  fun _ => { found := true, returncode := 0, duration := 0 }

/-- The filesystem produced by scaffolding myproj in an empty working
directory. -/
def demoResult : MainResult :=
  { cloneCommands := []
    projectName := "myproj"
    projectFolder := ["myproj"]
    fs := demoG
    commands := [wgetCmd ["myproj"] ".flake8", wgetCmd ["myproj"] ".gitignore",
      wgetCmd ["myproj"] ".pre-commit-config.yaml",
      wgetCmd ["myproj"] "pyproject.toml",
      initCmd ["myproj"], addCmd ["myproj"], commitCmd ["myproj"]] }

/-- The filesystem produced by scaffolding the cloned repo directory in
an empty working directory. -/
def demoUrlG : FS :=
  FS.set (FS.set (FS.set (FS.set emptyFS ["repo"] Entry.dir)
    ["repo", "requirements.txt"] (Entry.file ""))
    ["repo", "requirements-dev.txt"] (Entry.file "pre-commit"))
    ["repo", "README.md"] (Entry.file "# repo\n")

/-- The outcome of main on the SSH-style URL of scenario 3. -/
def demoUrlResult : MainResult :=
  { cloneCommands := [[Arg.s "git", Arg.s "clone",
      Arg.s "git@github.com:user/repo.git"]]
    projectName := "repo"
    projectFolder := ["repo"]
    fs := demoUrlG
    commands := [wgetCmd ["repo"] ".flake8", wgetCmd ["repo"] ".gitignore",
      wgetCmd ["repo"] ".pre-commit-config.yaml", wgetCmd ["repo"] "pyproject.toml",
      addCmd ["repo"], commitCmd ["repo"], pushCmd ["repo"]] }

/-- The string literals of the pattern, as character lists. -/
theorem data_gitat : "git@".data = ['g', 'i', 't', '@'] := rfl

theorem data_https : "https://".data = ['h', 't', 't', 'p', 's', ':', '/', '/'] := rfl

theorem data_com : "com".data = ['c', 'o', 'm'] := rfl

theorem data_org : "org".data = ['o', 'r', 'g'] := rfl

theorem data_dotgit : ".git".data = ['.', 'g', 'i', 't'] := rfl

/-- A greedy quantifier over a class first consumes exactly the leading
run of class characters: on u ++ d :: t with u in the class and d not,
that run is u. -/
theorem countLeading_append (p : Char → Bool) (u : List Char) (d : Char)
    (t : List Char) (hu : ∀ c ∈ u, p c = true) (hd : p d = false) :
    countLeading p (u ++ d :: t) = u.length := by
  induction u with
  | nil => simp [countLeading, hd]
  | cons a u ih =>
    have ha : p a = true := hu a (by simp)
    simp [countLeading, ha, ih (fun c hc => hu c (by simp [hc]))]

/-- A list is a Boolean prefix of itself followed by anything. -/
theorem isPrefixOf_append_self : ∀ (l t : List Char), l.isPrefixOf (l ++ t) = true := by
  intro l t
  induction l with
  | nil => simp [List.isPrefixOf]
  | cons a l ih => simp [List.isPrefixOf, ih]

/-- The backtracking loop succeeds at once when the continuation accepts
the maximal (first tried) split. -/
theorem tryFrom_top (f : List Char → Option (Option (List Char))) (cs : List Char)
    (lo m : Nat) (r : Option (List Char)) (h : f (cs.drop (lo + m)) = some r) :
    tryFrom f cs lo m = some r := by
  cases m with
  | zero => simpa using h
  | succ i =>
    have h' : f (cs.drop (lo + i + 1)) = some r := h
    simp [tryFrom, h']

/-- First-success semantics of the backtracking loop: if the
continuation fails on every split larger than lo + j and succeeds at
lo + j, the loop returns that success. -/
theorem tryFrom_first (f : List Char → Option (Option (List Char))) (cs : List Char)
    (lo : Nat) :
    ∀ (m j : Nat), j ≤ m →
      (∀ i, j < i → i ≤ m → f (cs.drop (lo + i)) = none) →
      ∀ r, f (cs.drop (lo + j)) = some r → tryFrom f cs lo m = some r := by
  intro m
  induction m with
  | zero =>
    intro j hj _ r hr
    have hj0 : j = 0 := Nat.le_zero.mp hj
    subst hj0
    simpa using hr
  | succ i ih =>
    intro j hj hfail r hr
    rcases Nat.lt_or_ge j (i + 1) with hlt | hge
    · have htop : f (cs.drop (lo + i + 1)) = none :=
        hfail (i + 1) hlt (Nat.le_refl _)
      simp only [tryFrom, htop]
      exact ih j (Nat.lt_succ_iff.mp hlt)
        (fun i' h1 h2 => hfail i' h1 (Nat.le_succ_of_le h2)) r hr
    · have hje : j = i + 1 := Nat.le_antisymm hj hge
      subst hje
      have hr' : f (cs.drop (lo + i + 1)) = some r := hr
      simp [tryFrom, hr']

/-- The capturing loop succeeds at once when the continuation accepts
the maximal split, capturing the whole leading run. -/
theorem tryGrpFrom_top (f : List Char → Option (Option (List Char))) (cs : List Char)
    (m : Nat) (r' : Option (List Char)) (h : f (cs.drop (m + 1)) = some r') :
    tryGrpFrom f cs m = some (some (cs.take (m + 1))) := by
  cases m with
  | zero =>
    have h' : f cs.tail = some r' := by simpa using h
    simp [tryGrpFrom, h']
  | succ i =>
    have h' : f (cs.drop (i + 2)) = some r' := h
    simp [tryGrpFrom, h']

/-- Repository-name characters are path characters. -/
theorem nameChar_pathChar (c : Char) (h : nameChar c = true) : pathChar c = true := by
  simp only [nameChar, Bool.or_eq_true] at h
  simp only [pathChar, Bool.or_eq_true]
  rcases h with h | h
  · exact Or.inl (Or.inl h)
  · exact Or.inr h

/-- A repository-name character is not a slash. -/
theorem nameChar_ne_slash (d : Char) (h : nameChar d = true) :
    (('/' : Char) == d) = false := by
  cases hbeq : (('/' : Char) == d) with
  | false => rfl
  | true =>
    have hd : d = '/' := (beq_iff_eq.mp hbeq).symm
    subst hd
    exact absurd h (by decide)

/-- Defining equation of the matcher: empty pattern list. -/
theorem mm_nil_eq (cs : List Char) : mm [] cs = some none := rfl

/-- Defining equation of the matcher: literal string item. -/
theorem mm_str_eq (l : List Char) (ps : List Pat) (cs : List Char) :
    mm (Pat.str l :: ps) cs =
      if l.isPrefixOf cs then mm ps (cs.drop l.length) else none := rfl

/-- Defining equation of the matcher: alternation item. -/
theorem mm_alts_eq (ls : List (List Char)) (ps : List Pat) (cs : List Char) :
    mm (Pat.alts ls :: ps) cs = tryAlts (fun t => mm ps t) ls cs := rfl

/-- Defining equation of the matcher: class item on a cons. -/
theorem mm_cls_eq (p : Char → Bool) (ps : List Pat) (c : Char) (t : List Char) :
    mm (Pat.cls p :: ps) (c :: t) = if p c then mm ps t else none := rfl

/-- Defining equation of the matcher: greedy star item. -/
theorem mm_star_eq (p : Char → Bool) (ps : List Pat) (cs : List Char) :
    mm (Pat.starCls p :: ps) cs =
      tryFrom (fun t => mm ps t) cs 0 (countLeading p cs) := rfl

/-- Defining equation of the matcher: greedy plus item. -/
theorem mm_plus_eq (p : Char → Bool) (ps : List Pat) (cs : List Char) :
    mm (Pat.plusCls p :: ps) cs =
      if countLeading p cs = 0 then none
      else tryFrom (fun t => mm ps t) cs 1 (countLeading p cs - 1) := rfl

/-- Defining equation of the matcher: capturing plus item. -/
theorem mm_grp_eq (p : Char → Bool) (ps : List Pat) (cs : List Char) :
    mm (Pat.grpPlusCls p :: ps) cs =
      if countLeading p cs = 0 then none
      else tryGrpFrom (fun t => mm ps t) cs (countLeading p cs - 1) := rfl

/-- On input nm ++ ".git..." with nm a non-empty run of name characters,
the capturing plus followed by the literal ".git" captures exactly nm. -/
theorem mm_grp_git (nm rest : List Char) (hnm : nm ≠ [])
    (hnc : ∀ c ∈ nm, nameChar c = true) :
    mm [Pat.grpPlusCls nameChar, Pat.str ".git".data]
      (nm ++ '.' :: 'g' :: 'i' :: 't' :: rest) = some (some nm) := by
  have hcount : countLeading nameChar (nm ++ '.' :: 'g' :: 'i' :: 't' :: rest)
      = nm.length := countLeading_append _ _ _ _ hnc (by decide)
  have hlen : nm.length ≠ 0 := by simpa using hnm
  obtain ⟨n, hn⟩ := Nat.exists_eq_succ_of_ne_zero hlen
  rw [mm_grp_eq, hcount, hn, if_neg (by omega),
    show n + 1 - 1 = n from rfl]
  have hdrop : (nm ++ '.' :: 'g' :: 'i' :: 't' :: rest).drop (n + 1)
      = '.' :: 'g' :: 'i' :: 't' :: rest := by
    rw [show n + 1 = nm.length by omega]; exact List.drop_left nm _
  have htake : (nm ++ '.' :: 'g' :: 'i' :: 't' :: rest).take (n + 1) = nm := by
    rw [show n + 1 = nm.length by omega]; exact List.take_left nm _
  have hcont : mm [Pat.str ".git".data] ('.' :: 'g' :: 'i' :: 't' :: rest)
      = some none := by
    have hform : ('.' :: 'g' :: 'i' :: 't' :: rest) = ".git".data ++ rest := by
      simp [data_dotgit]
    rw [hform, mm_str_eq, if_pos (isPrefixOf_append_self _ _), List.drop_left,
      mm_nil_eq]
  have happ : (fun t => mm [Pat.str ".git".data] t)
      ((nm ++ '.' :: 'g' :: 'i' :: 't' :: rest).drop (n + 1)) = some none := by
    rw [hdrop]; exact hcont
  rw [tryGrpFrom_top _ _ _ none happ, htake]

/-- Every split of the name-plus-dot region starts with a character that
is not a slash. -/
theorem drop_name_head (w : List Char) :
    ∀ (nm : List Char) (i : Nat), i ≤ nm.length →
      (∀ c ∈ nm, nameChar c = true) →
      ∃ d t2, (nm ++ '.' :: w).drop i = d :: t2 ∧ (('/' : Char) == d) = false := by
  intro nm
  induction nm with
  | nil =>
    intro i hi _
    have hi0 : i = 0 := Nat.le_zero.mp hi
    subst hi0
    exact ⟨'.', w, rfl, by decide⟩
  | cons a nm ih =>
    intro i hi hall
    cases i with
    | zero => exact ⟨a, nm ++ '.' :: w, rfl, nameChar_ne_slash a (hall a (by simp))⟩
    | succ i' =>
      have hi' : i' ≤ nm.length := by simp at hi; omega
      have := ih i' hi' (fun c hc => hall c (by simp [hc]))
      simp only [List.cons_append, List.drop_succ_cons]
      exact this

/-- On input mid ++ "/" ++ nm ++ ".git..." the greedy path plus
backtracks to the last slash and the captured group is nm. -/
theorem mm_path_tail (mid nm rest : List Char) (hmid : mid ≠ [])
    (hmc : ∀ c ∈ mid, pathChar c = true) (hnm : nm ≠ [])
    (hnc : ∀ c ∈ nm, nameChar c = true) :
    mm [Pat.plusCls pathChar, Pat.str ['/'], Pat.grpPlusCls nameChar,
        Pat.str ".git".data]
      (mid ++ '/' :: nm ++ '.' :: 'g' :: 'i' :: 't' :: rest) = some (some nm) := by
  have hassoc : mid ++ '/' :: nm ++ '.' :: 'g' :: 'i' :: 't' :: rest
      = (mid ++ '/' :: nm) ++ '.' :: 'g' :: 'i' :: 't' :: rest := by simp
  have hallM : ∀ c ∈ mid ++ '/' :: nm, pathChar c = true := by
    intro c hc
    rcases List.mem_append.mp hc with hcm | hcn
    · exact hmc c hcm
    · rcases List.mem_cons.mp hcn with hceq | hcn2
      · subst hceq; decide
      · exact nameChar_pathChar c (hnc c hcn2)
  have hcount : countLeading pathChar
      ((mid ++ '/' :: nm) ++ '.' :: 'g' :: 'i' :: 't' :: rest)
      = mid.length + nm.length + 1 := by
    rw [countLeading_append _ _ _ _ hallM (by decide)]
    simp only [List.length_append, List.length_cons]
    omega
  rw [hassoc, mm_plus_eq, hcount, if_neg (by omega),
    show mid.length + nm.length + 1 - 1 = mid.length + nm.length from rfl]
  obtain ⟨m0, hm0⟩ :=
    Nat.exists_eq_succ_of_ne_zero (show mid.length ≠ 0 by simpa using hmid)
  have hfail : ∀ i, m0 < i → i ≤ mid.length + nm.length →
      (fun t => mm [Pat.str ['/'], Pat.grpPlusCls nameChar, Pat.str ".git".data] t)
        (((mid ++ '/' :: nm) ++ '.' :: 'g' :: 'i' :: 't' :: rest).drop (1 + i))
        = none := by
    intro i hi1 hi2
    show mm [Pat.str ['/'], Pat.grpPlusCls nameChar, Pat.str ".git".data]
        (((mid ++ '/' :: nm) ++ '.' :: 'g' :: 'i' :: 't' :: rest).drop (1 + i)) = none
    have hcs2 : (mid ++ '/' :: nm) ++ '.' :: 'g' :: 'i' :: 't' :: rest
        = (mid ++ ['/']) ++ (nm ++ '.' :: 'g' :: 'i' :: 't' :: rest) := by simp
    have hksplit : 1 + i = (mid ++ ['/']).length + (i - mid.length) := by
      simp only [List.length_append, List.length_cons, List.length_nil]
      omega
    rw [hcs2, hksplit, List.drop_append]
    obtain ⟨d, t2, hdt, hdne⟩ :=
      drop_name_head ('g' :: 'i' :: 't' :: rest) nm (i - mid.length) (by omega) hnc
    rw [hdt, mm_str_eq]
    simp [List.isPrefixOf, hdne]
  have hsucc : (fun t => mm [Pat.str ['/'], Pat.grpPlusCls nameChar,
      Pat.str ".git".data] t)
        (((mid ++ '/' :: nm) ++ '.' :: 'g' :: 'i' :: 't' :: rest).drop (1 + m0))
      = some (some nm) := by
    show mm [Pat.str ['/'], Pat.grpPlusCls nameChar, Pat.str ".git".data]
        (((mid ++ '/' :: nm) ++ '.' :: 'g' :: 'i' :: 't' :: rest).drop (1 + m0))
      = some (some nm)
    have hdropm : ((mid ++ '/' :: nm) ++ '.' :: 'g' :: 'i' :: 't' :: rest).drop (1 + m0)
        = '/' :: (nm ++ '.' :: 'g' :: 'i' :: 't' :: rest) := by
      have hform : (mid ++ '/' :: nm) ++ '.' :: 'g' :: 'i' :: 't' :: rest
          = mid ++ ('/' :: (nm ++ '.' :: 'g' :: 'i' :: 't' :: rest)) := by simp
      rw [hform, show 1 + m0 = mid.length by omega]
      exact List.drop_left mid _
    rw [hdropm, mm_str_eq]
    have hpre : (['/'] : List Char).isPrefixOf
        ('/' :: (nm ++ '.' :: 'g' :: 'i' :: 't' :: rest)) = true := by
      simp [List.isPrefixOf]
    rw [if_pos hpre]
    show mm [Pat.grpPlusCls nameChar, Pat.str ".git".data]
        (nm ++ '.' :: 'g' :: 'i' :: 't' :: rest) = some (some nm)
    exact mm_grp_git nm rest hnm hnc
  exact tryFrom_first _ _ _ _ m0 (by omega) hfail _ hsucc

/-- Defining equation of the alternation loop on a cons. -/
theorem tryAlts_cons_eq (f : List Char → Option (Option (List Char)))
    (l : List Char) (ls : List (List Char)) (cs : List Char) :
    tryAlts f (l :: ls) cs =
      if l.isPrefixOf cs then
        match f (cs.drop l.length) with
        | some r => some r
        | none => tryAlts f ls cs
      else tryAlts f ls cs := rfl

/-- On input host ++ "." ++ tld ++ sep ++ path the tail of the pattern
after the protocol alternation matches and captures the repository
name. -/
theorem mm_host_tail (h tld : List Char) (sep : Char) (mid nm rest : List Char)
    (hh : ∀ c ∈ h, hostChar c = true)
    (ht : tld = "com".data ∨ tld = "org".data)
    (hs : sep = '/' ∨ sep = ':')
    (hmid : mid ≠ []) (hmc : ∀ c ∈ mid, pathChar c = true)
    (hnm : nm ≠ []) (hnc : ∀ c ∈ nm, nameChar c = true) :
    mm [Pat.starCls hostChar, Pat.str ['.'], Pat.alts ["com".data, "org".data],
        Pat.cls (fun c => c == '/' || c == ':'), Pat.plusCls pathChar,
        Pat.str ['/'], Pat.grpPlusCls nameChar, Pat.str ".git".data]
      (h ++ '.' :: (tld ++ sep :: (mid ++ '/' :: nm ++ '.' :: 'g' :: 'i' :: 't' :: rest)))
      = some (some nm) := by
  have hcount : countLeading hostChar
      (h ++ '.' :: (tld ++ sep :: (mid ++ '/' :: nm ++ '.' :: 'g' :: 'i' :: 't' :: rest)))
      = h.length := countLeading_append _ _ _ _ hh (by decide)
  rw [mm_star_eq, hcount]
  apply tryFrom_top
  rw [Nat.zero_add]
  show mm [Pat.str ['.'], Pat.alts ["com".data, "org".data],
        Pat.cls (fun c => c == '/' || c == ':'), Pat.plusCls pathChar,
        Pat.str ['/'], Pat.grpPlusCls nameChar, Pat.str ".git".data]
      ((h ++ '.' :: (tld ++ sep :: (mid ++ '/' :: nm ++ '.' :: 'g' :: 'i' :: 't' :: rest))).drop h.length)
      = some (some nm)
  rw [List.drop_left]
  rw [mm_str_eq, if_pos (by simp [List.isPrefixOf] :
    (['.'] : List Char).isPrefixOf
      ('.' :: (tld ++ sep :: (mid ++ '/' :: nm ++ '.' :: 'g' :: 'i' :: 't' :: rest))) = true)]
  show mm [Pat.alts ["com".data, "org".data],
        Pat.cls (fun c => c == '/' || c == ':'), Pat.plusCls pathChar,
        Pat.str ['/'], Pat.grpPlusCls nameChar, Pat.str ".git".data]
      (tld ++ sep :: (mid ++ '/' :: nm ++ '.' :: 'g' :: 'i' :: 't' :: rest))
      = some (some nm)
  have hsep : ((fun c => c == '/' || c == ':') sep) = true := by
    rcases hs with hs | hs <;> subst hs <;> decide
  have hcont : mm [Pat.cls (fun c => c == '/' || c == ':'), Pat.plusCls pathChar,
        Pat.str ['/'], Pat.grpPlusCls nameChar, Pat.str ".git".data]
      (sep :: (mid ++ '/' :: nm ++ '.' :: 'g' :: 'i' :: 't' :: rest))
      = some (some nm) := by
    rw [mm_cls_eq, if_pos hsep]
    exact mm_path_tail mid nm rest hmid hmc hnm hnc
  rw [mm_alts_eq]
  rcases ht with ht | ht <;> subst ht
  · rw [tryAlts_cons_eq, if_pos (isPrefixOf_append_self _ _), List.drop_left, hcont]
  · have hf : ("com".data).isPrefixOf
        ("org".data ++ sep :: (mid ++ '/' :: nm ++ '.' :: 'g' :: 'i' :: 't' :: rest))
        = false := by
      rw [data_com, data_org]; simp [List.isPrefixOf]
    rw [tryAlts_cons_eq, if_neg (by simp [hf]), tryAlts_cons_eq,
      if_pos (isPrefixOf_append_self _ _), List.drop_left, hcont]

/-- On any input decomposing as protocol + host + "." + tld + separator +
path + "/" + name + ".git" + anything, the whole pattern matches and
group 3 is the name. -/
theorem mm_url_parts (p h tld : List Char) (sep : Char) (mid nm rest : List Char)
    (hp : p = "git@".data ∨ p = "https://".data)
    (hh : ∀ c ∈ h, hostChar c = true)
    (ht : tld = "com".data ∨ tld = "org".data)
    (hs : sep = '/' ∨ sep = ':')
    (hmid : mid ≠ []) (hmc : ∀ c ∈ mid, pathChar c = true)
    (hnm : nm ≠ []) (hnc : ∀ c ∈ nm, nameChar c = true) :
    mm repository_url_regex
      (p ++ (h ++ '.' :: (tld ++ sep :: (mid ++ '/' :: nm ++ '.' :: 'g' :: 'i' :: 't' :: rest))))
      = some (some nm) := by
  have hX := mm_host_tail h tld sep mid nm rest hh ht hs hmid hmc hnm hnc
  unfold repository_url_regex
  rw [mm_alts_eq]
  rcases hp with hp | hp <;> subst hp
  · rw [tryAlts_cons_eq, if_pos (isPrefixOf_append_self _ _), List.drop_left, hX]
  · have hf : ("git@".data).isPrefixOf
        ("https://".data ++ (h ++ '.' :: (tld ++ sep :: (mid ++ '/' :: nm ++ '.' :: 'g' :: 'i' :: 't' :: rest))))
        = false := by
      rw [data_gitat, data_https]; simp [List.isPrefixOf]
    rw [tryAlts_cons_eq, if_neg (by simp [hf]), tryAlts_cons_eq,
      if_pos (isPrefixOf_append_self _ _), List.drop_left, hX]

/-- Defining equation of the matcher: class item on the empty input. -/
theorem mm_cls_nil_eq (p : Char → Bool) (ps : List Pat) :
    mm (Pat.cls p :: ps) [] = none := rfl

/-- A Boolean prefix yields an append decomposition. -/
theorem isPrefixOf_exists : ∀ (l cs : List Char),
    l.isPrefixOf cs = true → ∃ t, cs = l ++ t := by
  intro l
  induction l with
  | nil => intro cs _; exact ⟨cs, rfl⟩
  | cons a l ih =>
    intro cs h
    cases cs with
    | nil => simp [List.isPrefixOf] at h
    | cons b cs =>
      simp only [List.isPrefixOf, Bool.and_eq_true, beq_iff_eq] at h
      obtain ⟨t, ht⟩ := ih cs h.2
      refine ⟨t, ?_⟩
      rw [h.1, ht]
      rfl

/-- The leading class run never exceeds the input length. -/
theorem countLeading_le_length (p : Char → Bool) :
    ∀ cs : List Char, countLeading p cs ≤ cs.length := by
  intro cs
  induction cs with
  | nil => simp [countLeading]
  | cons c cs ih =>
    cases hpc : p c
    · simp [countLeading, hpc]
    · simp only [countLeading, hpc, if_true, List.length_cons]
      omega

/-- Characters within the leading class run satisfy the class. -/
theorem countLeading_take (p : Char → Bool) :
    ∀ (cs : List Char) (j : Nat), j ≤ countLeading p cs →
      ∀ c ∈ cs.take j, p c = true := by
  intro cs
  induction cs with
  | nil => intro j _ c hc; simp at hc
  | cons a cs ih =>
    intro j hj c hc
    cases j with
    | zero => simp at hc
    | succ j2 =>
      cases hpa : p a
      · rw [show countLeading p (a :: cs) = if p a then countLeading p cs + 1 else 0
          from rfl, hpa] at hj
        simp at hj
      · rw [show countLeading p (a :: cs) = if p a then countLeading p cs + 1 else 0
          from rfl, hpa] at hj
        simp only [if_true] at hj
        rw [List.take_succ_cons] at hc
        rcases List.mem_cons.mp hc with hca | hcin
        · subst hca; exact hpa
        · exact ih j2 (by omega) c hcin

/-- Soundness of the alternation loop: a success comes from some listed
alternative that is a prefix, with the continuation succeeding after it. -/
theorem tryAlts_sound (f : List Char → Option (Option (List Char))) :
    ∀ (ls : List (List Char)) (cs : List Char) (r : Option (List Char)),
      tryAlts f ls cs = some r →
      ∃ l, l ∈ ls ∧ l.isPrefixOf cs = true ∧ f (cs.drop l.length) = some r := by
  intro ls
  induction ls with
  | nil => intro cs r h; simp [tryAlts] at h
  | cons l ls ih =>
    intro cs r h
    rw [tryAlts_cons_eq] at h
    by_cases hpre : l.isPrefixOf cs = true
    · rw [if_pos hpre] at h
      cases hf : f (cs.drop l.length) with
      | some r2 =>
        rw [hf] at h
        simp only [Option.some.injEq] at h
        exact ⟨l, by simp, hpre, by rw [hf, h]⟩
      | none =>
        rw [hf] at h
        obtain ⟨l2, hmem, hl2, hfl2⟩ := ih cs r h
        exact ⟨l2, by simp [hmem], hl2, hfl2⟩
    · rw [if_neg hpre] at h
      obtain ⟨l2, hmem, hl2, hfl2⟩ := ih cs r h
      exact ⟨l2, by simp [hmem], hl2, hfl2⟩

/-- Soundness of the backtracking loop: a success comes from some split
within the tried range. -/
theorem tryFrom_sound (f : List Char → Option (Option (List Char)))
    (cs : List Char) (lo : Nat) :
    ∀ (m : Nat) (r : Option (List Char)),
      tryFrom f cs lo m = some r → ∃ j, j ≤ m ∧ f (cs.drop (lo + j)) = some r := by
  intro m
  induction m with
  | zero => intro r h; exact ⟨0, Nat.le_refl 0, h⟩
  | succ i ih =>
    intro r h
    cases hf : f (cs.drop (lo + i + 1)) with
    | some r2 =>
      rw [show tryFrom f cs lo (i + 1)
          = match f (cs.drop (lo + i + 1)) with
            | some r => some r
            | none => tryFrom f cs lo i from rfl, hf] at h
      simp only [Option.some.injEq] at h
      exact ⟨i + 1, Nat.le_refl _, by rw [show lo + (i + 1) = lo + i + 1 from rfl, hf, h]⟩
    | none =>
      rw [show tryFrom f cs lo (i + 1)
          = match f (cs.drop (lo + i + 1)) with
            | some r => some r
            | none => tryFrom f cs lo i from rfl, hf] at h
      obtain ⟨j, hj, hfj⟩ := ih r h
      exact ⟨j, Nat.le_succ_of_le hj, hfj⟩

/-- Soundness of the capturing loop: a success captures the consumed
prefix of some split within the tried range. -/
theorem tryGrpFrom_sound (f : List Char → Option (Option (List Char)))
    (cs : List Char) :
    ∀ (m : Nat) (r : Option (List Char)),
      tryGrpFrom f cs m = some r →
      ∃ k, 1 ≤ k ∧ k ≤ m + 1 ∧ (∃ r2, f (cs.drop k) = some r2) ∧
        r = some (cs.take k) := by
  intro m
  induction m with
  | zero =>
    intro r h
    cases hf : f (cs.drop 1) with
    | some r2 =>
      rw [show tryGrpFrom f cs 0
          = match f (cs.drop 1) with
            | some _ => some (some (cs.take 1))
            | none => none from rfl, hf] at h
      simp only [Option.some.injEq] at h
      exact ⟨1, Nat.le_refl 1, Nat.le_refl 1, ⟨r2, hf⟩, h.symm⟩
    | none =>
      rw [show tryGrpFrom f cs 0
          = match f (cs.drop 1) with
            | some _ => some (some (cs.take 1))
            | none => none from rfl, hf] at h
      exact absurd h (by simp)
  | succ i ih =>
    intro r h
    cases hf : f (cs.drop (i + 2)) with
    | some r2 =>
      rw [show tryGrpFrom f cs (i + 1)
          = match f (cs.drop (i + 2)) with
            | some _ => some (some (cs.take (i + 2)))
            | none => tryGrpFrom f cs i from rfl, hf] at h
      simp only [Option.some.injEq] at h
      exact ⟨i + 2, by omega, by omega, ⟨r2, hf⟩, h.symm⟩
    | none =>
      rw [show tryGrpFrom f cs (i + 1)
          = match f (cs.drop (i + 2)) with
            | some _ => some (some (cs.take (i + 2)))
            | none => tryGrpFrom f cs i from rfl, hf] at h
      obtain ⟨k, h1, h2, h3, h4⟩ := ih r h
      exact ⟨k, h1, by omega, h3, h4⟩

/-- Soundness of the matcher: every reported match decomposes the input
as described by the pattern list. -/
theorem mm_sound : ∀ (ps : List Pat) (cs : List Char) (r : Option (List Char)),
    mm ps cs = some r → Chain ps cs r := by
  intro ps
  induction ps with
  | nil =>
    intro cs r h
    rw [mm_nil_eq] at h
    simp only [Option.some.injEq] at h
    exact h.symm
  | cons pat ps ih =>
    cases pat with
    | str l =>
      intro cs r h
      rw [mm_str_eq] at h
      by_cases hpre : l.isPrefixOf cs = true
      · rw [if_pos hpre] at h
        obtain ⟨t, ht⟩ := isPrefixOf_exists l cs hpre
        subst ht
        rw [List.drop_left] at h
        exact ⟨t, rfl, ih t r h⟩
      · rw [if_neg hpre] at h; exact absurd h (by simp)
    | alts ls =>
      intro cs r h
      rw [mm_alts_eq] at h
      obtain ⟨l, hmem, hpre, hf⟩ := tryAlts_sound _ ls cs r h
      obtain ⟨t, ht⟩ := isPrefixOf_exists l cs hpre
      subst ht
      rw [List.drop_left] at hf
      exact ⟨l, hmem, t, rfl, ih t r hf⟩
    | cls p =>
      intro cs r h
      cases cs with
      | nil => rw [mm_cls_nil_eq] at h; exact absurd h (by simp)
      | cons c t =>
        rw [mm_cls_eq] at h
        by_cases hpc : p c = true
        · rw [if_pos hpc] at h; exact ⟨c, t, rfl, hpc, ih t r h⟩
        · rw [if_neg hpc] at h; exact absurd h (by simp)
    | starCls p =>
      intro cs r h
      rw [mm_star_eq] at h
      obtain ⟨j, hj, hfj⟩ := tryFrom_sound _ cs 0 (countLeading p cs) r h
      rw [Nat.zero_add] at hfj
      exact ⟨cs.take j, cs.drop j, (List.take_append_drop j cs).symm,
        countLeading_take p cs j hj, ih _ r hfj⟩
    | plusCls p =>
      intro cs r h
      rw [mm_plus_eq] at h
      by_cases hz : countLeading p cs = 0
      · rw [if_pos hz] at h; exact absurd h (by simp)
      · rw [if_neg hz] at h
        obtain ⟨j, hj, hfj⟩ := tryFrom_sound _ cs 1 (countLeading p cs - 1) r h
        have hk : 1 + j ≤ countLeading p cs := by omega
        refine ⟨cs.take (1 + j), cs.drop (1 + j),
          (List.take_append_drop _ cs).symm, ?_,
          countLeading_take p cs (1 + j) hk, ih _ r hfj⟩
        intro hemp
        have hlen : 1 ≤ cs.length :=
          Nat.le_trans (by omega) (countLeading_le_length p cs)
        have hle := congrArg List.length hemp
        simp only [List.length_take, List.length_nil] at hle
        omega
    | grpPlusCls p =>
      intro cs r h
      rw [mm_grp_eq] at h
      by_cases hz : countLeading p cs = 0
      · rw [if_pos hz] at h; exact absurd h (by simp)
      · rw [if_neg hz] at h
        obtain ⟨k, hk1, hk2, ⟨r2, hf⟩, hr⟩ :=
          tryGrpFrom_sound _ cs (countLeading p cs - 1) r h
        have hk : k ≤ countLeading p cs := by omega
        refine ⟨cs.take k, cs.drop k, r2, (List.take_append_drop _ cs).symm, ?_,
          countLeading_take p cs k hk, ih _ r2 hf, hr⟩
        intro hemp
        have hlen : 1 ≤ cs.length :=
          Nat.le_trans (by omega) (countLeading_le_length p cs)
        have hle := congrArg List.length hemp
        simp only [List.length_take, List.length_nil] at hle
        omega

/-- Unpacking Chain at the concrete repository pattern: any match
decomposes the input into protocol, host, tld, separator, path, name,
".git" and leftover, and the captured group is the name. -/
theorem chain_url_decomp (cs : List Char) (g : Option (List Char))
    (h : Chain repository_url_regex cs g) :
    ∃ p hst tld sep mid nm rest,
      (p = "git@".data ∨ p = "https://".data) ∧
      (∀ c ∈ hst, hostChar c = true) ∧
      (tld = "com".data ∨ tld = "org".data) ∧
      (sep = '/' ∨ sep = ':') ∧
      mid ≠ [] ∧ (∀ c ∈ mid, pathChar c = true) ∧
      nm ≠ [] ∧ (∀ c ∈ nm, nameChar c = true) ∧
      cs = p ++ hst ++ '.' :: tld ++ sep :: mid ++ '/' :: nm ++ '.' :: 'g' :: 'i' :: 't' :: rest ∧
      g = some nm := by
  unfold repository_url_regex at h
  obtain ⟨p, hpmem, t1, rfl, h⟩ := h
  obtain ⟨hst, t2, rfl, hhst, h⟩ := h
  obtain ⟨t3, rfl, h⟩ := h
  obtain ⟨tld, htmem, t4, rfl, h⟩ := h
  obtain ⟨sep, t5, rfl, hsep, h⟩ := h
  obtain ⟨mid, t6, rfl, hmidne, hmidc, h⟩ := h
  obtain ⟨t7, rfl, h⟩ := h
  obtain ⟨nm, t8, r2, rfl, hnmne, hnmc, hch8, hg⟩ := h
  obtain ⟨rest, rfl, -⟩ := hch8
  refine ⟨p, hst, tld, sep, mid, nm, rest, ?_, hhst, ?_, ?_, hmidne, hmidc,
    hnmne, hnmc, ?_, hg⟩
  · simpa using hpmem
  · simpa using htmem
  · have hsep2 : (sep == '/' || sep == ':') = true := hsep
    simpa using hsep2
  · simp [data_dotgit, List.append_assoc]

/-- Any successful classification means the input has the spec URL shape. -/
theorem is_repository_url_some_specMatches (s : String) (g : String)
    (h : is_repository_url s = some g) : SpecMatches s := by
  unfold is_repository_url at h
  cases hmmr : mm repository_url_regex s.data with
  | none => rw [hmmr] at h; exact absurd h (by simp)
  | some r =>
    cases r with
    | none => rw [hmmr] at h; exact absurd h (by simp)
    | some gd =>
      have hch := mm_sound repository_url_regex s.data (some gd) hmmr
      obtain ⟨p, hst, tld, sep, mid, nm, rest, h1, h2, h3, h4, h5, h6, h7, h8, h9, -⟩ :=
        chain_url_decomp _ _ hch
      exact ⟨p, hst, tld, sep, mid, nm, rest, h1, h2, h3, h4, h5, h6, h7, h8, h9⟩

/-- Any input of the spec URL shape is classified as a repository URL. -/
theorem specMatches_some (s : String) (h : SpecMatches s) :
    ∃ g, is_repository_url s = some g := by
  obtain ⟨p, hst, tld, sep, mid, nm, rest, h1, h2, h3, h4, h5, h6, h7, h8, h9⟩ := h
  refine ⟨String.mk nm, ?_⟩
  unfold is_repository_url
  rw [h9, show p ++ hst ++ '.' :: tld ++ sep :: mid ++ '/' :: nm ++ '.' :: 'g' :: 'i' :: 't' :: rest
      = p ++ (hst ++ '.' :: (tld ++ sep :: (mid ++ '/' :: nm ++ '.' :: 'g' :: 'i' :: 't' :: rest)))
      by simp [List.append_assoc],
    mm_url_parts p hst tld sep mid nm rest h1 h2 h3 h4 h5 h6 h7 h8]

/-- C1: for every input of the repository-URL shape -- an SSH-style or
HTTPS protocol prefix, a host of word, at-sign and hyphen characters,
".com" or ".org", a slash or colon, a path part, a slash, a final
segment nm, then ".git" -- the classifier returns Some nm, the final
path segment with the ".git" suffix removed; rest is arbitrary trailing
content after the matched prefix, which prefix matching ignores. -/
theorem claim_C1 (p h tld : List Char) (sep : Char) (mid nm rest : List Char)
    (hp : p = "git@".data ∨ p = "https://".data)
    (hh : ∀ c ∈ h, hostChar c = true)
    (ht : tld = "com".data ∨ tld = "org".data)
    (hs : sep = '/' ∨ sep = ':')
    (hmid : mid ≠ []) (hmc : ∀ c ∈ mid, pathChar c = true)
    (hnm : nm ≠ []) (hnc : ∀ c ∈ nm, nameChar c = true) :
    is_repository_url (String.mk
      (p ++ h ++ '.' :: tld ++ sep :: mid ++ '/' :: nm ++ '.' :: 'g' :: 'i' :: 't' :: rest))
      = some (String.mk nm) := by
  unfold is_repository_url
  rw [show (String.mk
      (p ++ h ++ '.' :: tld ++ sep :: mid ++ '/' :: nm ++ '.' :: 'g' :: 'i' :: 't' :: rest)).data
      = p ++ h ++ '.' :: tld ++ sep :: mid ++ '/' :: nm ++ '.' :: 'g' :: 'i' :: 't' :: rest
      from rfl,
    show p ++ h ++ '.' :: tld ++ sep :: mid ++ '/' :: nm ++ '.' :: 'g' :: 'i' :: 't' :: rest
      = p ++ (h ++ '.' :: (tld ++ sep :: (mid ++ '/' :: nm ++ '.' :: 'g' :: 'i' :: 't' :: rest)))
      by simp [List.append_assoc],
    mm_url_parts p h tld sep mid nm rest hp hh ht hs hmid hmc hnm hnc]

/-- Witness for C1: a concrete HTTPS URL is classified with exactly the
final path segment as repository name. -/
theorem claim_C1_witness :
    is_repository_url "https://github.com/user/repo.git" = some "repo" := by
  have h := claim_C1 "https://".data "github".data "com".data '/'
    "user".data "repo".data []
    (Or.inr rfl) (by decide) (Or.inl rfl) (Or.inl rfl)
    (by decide) (by decide) (by decide) (by decide)
  exact h

/-- Appending a dot after a dot-free list pins the split: the first dots
of both sides line up. -/
theorem eq_of_dotfree : ∀ (a b t u : List Char),
    (∀ c ∈ a, ¬ c = '.') → (∀ c ∈ b, ¬ c = '.') →
    a ++ '.' :: t = b ++ '.' :: u → a = b ∧ t = u := by
  intro a
  induction a with
  | nil =>
    intro b t u _ hb heq
    cases b with
    | nil => simp at heq; exact ⟨rfl, heq⟩
    | cons x b =>
      simp at heq
      exact absurd heq.1.symm (hb x (by simp))
  | cons y a ih =>
    intro b t u ha hb heq
    cases b with
    | nil =>
      simp at heq
      exact absurd heq.1 (ha y (by simp))
    | cons x b =>
      simp only [List.cons_append, List.cons.injEq] at heq
      obtain ⟨h1, h2⟩ := heq
      obtain ⟨hab, htu⟩ := ih b t u
        (fun c hc => ha c (by simp [hc])) (fun c hc => hb c (by simp [hc])) h2
      exact ⟨by rw [h1, hab], htu⟩

/-- Host characters are not dots. -/
theorem hostChar_ne_dot (c : Char) (h : hostChar c = true) : ¬ c = '.' := by
  intro hc; subst hc; exact absurd h (by decide)

/-- Path characters are not dots. -/
theorem pathChar_ne_dot (c : Char) (h : pathChar c = true) : ¬ c = '.' := by
  intro hc; subst hc; exact absurd h (by decide)

/-- Repository-name characters are not dots. -/
theorem nameChar_ne_dot (c : Char) (h : nameChar c = true) : ¬ c = '.' := by
  intro hc; subst hc; exact absurd h (by decide)

/-- C10: the pattern requires at least one path segment between the
host separator and the final name: an input whose ".git"-suffixed
component (a dot directly after a run of name characters) comes right
after the host separator does not match and is classified as a plain
project name. -/
theorem claim_C10 (p h tld : List Char) (sep : Char) (nm rest : List Char)
    (hp : p = "git@".data ∨ p = "https://".data)
    (hh : ∀ c ∈ h, hostChar c = true)
    (ht : tld = "com".data ∨ tld = "org".data)
    (hs : sep = '/' ∨ sep = ':')
    (hnc : ∀ c ∈ nm, nameChar c = true) :
    is_repository_url (String.mk (p ++ h ++ '.' :: tld ++ sep :: nm ++ '.' :: rest))
      = none := by
  cases hopt : is_repository_url (String.mk (p ++ h ++ '.' :: tld ++ sep :: nm ++ '.' :: rest)) with
  | none => rfl
  | some g =>
    exfalso
    have hsm := is_repository_url_some_specMatches _ g hopt
    obtain ⟨p2, h2, tld2, sep2, mid2, nm2, rest2, k1, k2, k3, k4, k5, k6, k7, k8, k9⟩ := hsm
    have hL2 : (p ++ h) ++ '.' :: (tld ++ sep :: nm ++ '.' :: rest)
        = (p2 ++ h2) ++ '.' :: (tld2 ++ sep2 :: mid2 ++ '/' :: nm2 ++ '.' :: 'g' :: 'i' :: 't' :: rest2) := by
      have k9' : p ++ h ++ '.' :: tld ++ sep :: nm ++ '.' :: rest
          = p2 ++ h2 ++ '.' :: tld2 ++ sep2 :: mid2 ++ '/' :: nm2 ++ '.' :: 'g' :: 'i' :: 't' :: rest2 := k9
      simpa [List.append_assoc] using k9'
    have hdf1 : ∀ c ∈ p ++ h, ¬ c = '.' := by
      intro c hc
      rcases List.mem_append.mp hc with hcp | hch
      · rcases hp with hp | hp <;> subst hp
        · exact (by decide : ∀ x ∈ "git@".data, ¬ x = '.') c hcp
        · exact (by decide : ∀ x ∈ "https://".data, ¬ x = '.') c hcp
      · exact hostChar_ne_dot c (hh c hch)
    have hdf2 : ∀ c ∈ p2 ++ h2, ¬ c = '.' := by
      intro c hc
      rcases List.mem_append.mp hc with hcp | hch
      · rcases k1 with k1 | k1 <;> subst k1
        · exact (by decide : ∀ x ∈ "git@".data, ¬ x = '.') c hcp
        · exact (by decide : ∀ x ∈ "https://".data, ¬ x = '.') c hcp
      · exact hostChar_ne_dot c (k2 c hch)
    obtain ⟨-, hteq⟩ := eq_of_dotfree (p ++ h) (p2 ++ h2) _ _ hdf1 hdf2 hL2
    have hlen3 : tld.length = tld2.length := by
      rcases ht with ht | ht <;> rcases k3 with k3 | k3 <;> subst ht <;> subst k3 <;> rfl
    have hteq2 : tld ++ sep :: (nm ++ '.' :: rest)
        = tld2 ++ sep2 :: (mid2 ++ '/' :: nm2 ++ '.' :: 'g' :: 'i' :: 't' :: rest2) := by
      simpa [List.append_assoc] using hteq
    obtain ⟨-, hconseq⟩ := List.append_inj hteq2 hlen3
    injection hconseq with hsepeq htail
    have htail2 : nm ++ '.' :: rest
        = (mid2 ++ '/' :: nm2) ++ '.' :: ('g' :: 'i' :: 't' :: rest2) := by
      simpa [List.append_assoc] using htail
    have hdf3 : ∀ c ∈ nm, ¬ c = '.' := fun c hc => nameChar_ne_dot c (hnc c hc)
    have hdf4 : ∀ c ∈ mid2 ++ '/' :: nm2, ¬ c = '.' := by
      intro c hc
      rcases List.mem_append.mp hc with hcm | hcn
      · exact pathChar_ne_dot c (k6 c hcm)
      · rcases List.mem_cons.mp hcn with rfl | hcn2
        · decide
        · exact nameChar_ne_dot c (k8 c hcn2)
    obtain ⟨hnmeq, -⟩ := eq_of_dotfree nm (mid2 ++ '/' :: nm2) _ _ hdf3 hdf4 htail2
    have hslash : ('/' : Char) ∈ nm := by
      rw [hnmeq]; exact List.mem_append.mpr (Or.inr (by simp))
    exact absurd (hnc '/' hslash) (by decide)

/-- Witness for C10: a URL with the repository name directly after the
host is not classified as a repository URL. -/
theorem claim_C10_witness :
    is_repository_url "https://example.com/repo.git" = none := by
  have h := claim_C10 "https://".data "example".data "com".data '/'
    "repo".data "git".data
    (Or.inr rfl) (by decide) (Or.inl rfl) (Or.inl rfl) (by decide)
  exact h

theorem FS.set_self (fs : FS) (p : List String) (e : Entry) :
    FS.set fs p e p = some e := by simp [FS.set]

theorem FS.set_other (fs : FS) (p q : List String) (e : Entry) (h : q ≠ p) :
    FS.set fs p e q = fs q := by simp [FS.set, h]

theorem mkdir_ok_of_dir (fs : FS) (p : List String) (h : fs p = some Entry.dir) :
    mkdir_exist_ok fs p = Except.ok fs := by
  unfold mkdir_exist_ok; rw [h]

theorem mkdir_ok_self (fs : FS) (p : List String) (g : FS)
    (h : mkdir_exist_ok fs p = Except.ok g) : g p = some Entry.dir := by
  unfold mkdir_exist_ok at h
  cases hfs : fs p with
  | none =>
    rw [hfs] at h
    injection h with hg
    rw [← hg]; exact FS.set_self fs p Entry.dir
  | some ent =>
    cases ent with
    | dir => rw [hfs] at h; injection h with hg; rw [← hg]; exact hfs
    | file c => rw [hfs] at h; exact absurd h (by simp)

theorem mkdir_ok_other (fs : FS) (p : List String) (g : FS)
    (h : mkdir_exist_ok fs p = Except.ok g) (q : List String) (hq : q ≠ p) :
    g q = fs q := by
  unfold mkdir_exist_ok at h
  cases hfs : fs p with
  | none =>
    rw [hfs] at h
    injection h with hg
    rw [← hg]; exact FS.set_other fs p q Entry.dir hq
  | some ent =>
    cases ent with
    | dir => rw [hfs] at h; injection h with hg; rw [← hg]
    | file c => rw [hfs] at h; exact absurd h (by simp)

theorem mkdir_keep (fs : FS) (p : List String) (g : FS)
    (hok : mkdir_exist_ok fs p = Except.ok g) (q : List String) (e : Entry)
    (h : fs q = some e) : g q = some e := by
  by_cases hq : q = p
  · subst hq
    unfold mkdir_exist_ok at hok
    rw [h] at hok
    cases e with
    | dir => injection hok with hg; rw [← hg]; exact h
    | file c => exact absurd hok (by simp)
  · rw [mkdir_ok_other fs p g hok q hq]; exact h

theorem touch_of_some (fs : FS) (p : List String) (h : (fs p).isSome = true) :
    touch fs p = fs := by
  unfold touch
  cases hfs : fs p with
  | none => rw [hfs] at h; simp at h
  | some e => rfl

theorem touch_self_isSome (fs : FS) (p : List String) :
    ((touch fs p) p).isSome = true := by
  unfold touch
  cases hfs : fs p with
  | none => simp [FS.set_self]
  | some e => simp [hfs]

theorem touch_other (fs : FS) (p q : List String) (hq : q ≠ p) :
    touch fs p q = fs q := by
  unfold touch
  cases hfs : fs p with
  | none => exact FS.set_other fs p q (Entry.file "") hq
  | some e => rfl

theorem touch_keep (fs : FS) (p q : List String) (e : Entry)
    (h : fs q = some e) : touch fs p q = some e := by
  by_cases hq : q = p
  · subst hq; rw [touch_of_some fs q (by simp [h])]; exact h
  · rw [touch_other fs p q hq]; exact h

theorem create_file_of_isSome (fs : FS) (path : List String)
    (filename content : String) (h : (fs (path ++ [filename])).isSome = true) :
    create_file fs path filename content = fs := by
  unfold create_file; rw [if_pos h]

theorem create_file_other (fs : FS) (path : List String)
    (filename content : String) (q : List String) (hq : q ≠ path ++ [filename]) :
    create_file fs path filename content q = fs q := by
  unfold create_file
  split_ifs <;> simp [FS.set, hq]

theorem create_file_self_isSome (fs : FS) (path : List String)
    (filename content : String) (hc : ¬ content = "") :
    ((create_file fs path filename content) (path ++ [filename])).isSome = true := by
  unfold create_file
  cases hfs : (fs (path ++ [filename])).isSome with
  | true => rw [if_pos rfl]; exact hfs
  | false =>
    rw [if_neg (by simp), if_neg hc]
    simp [FS.set_self]

theorem create_file_keep (fs : FS) (path : List String)
    (filename content : String) (q : List String) (e : Entry)
    (h : fs q = some e) : create_file fs path filename content q = some e := by
  by_cases hq : q = path ++ [filename]
  · subst hq
    rw [create_file_of_isSome fs path filename content (by simp [h])]; exact h
  · rw [create_file_other fs path filename content q hq]; exact h

theorem ne_of_length_ne {a b : List String} (h : ¬ a.length = b.length) :
    a ≠ b := fun e => h (by rw [e])

theorem pair_ne_of_snd {n x y : String} (h : ¬ x = y) :
    ([n, x] : List String) ≠ [n, y] := by
  intro e; injection e with e1 e2; injection e2 with e3 _; exact h e3

theorem readme_nonempty (name : String) : ¬ ("# " ++ name ++ "\n") = "" := by
  intro h
  have := congrArg String.length h
  simp [String.length_append] at this
  exact absurd this.1.1 (by decide)

theorem scaffold_ok_state (name : String) (tests : Bool) (fs g : FS)
    (h : scaffold name tests fs = Except.ok g) :
    g [name] = some Entry.dir ∧
    (g [name, "requirements.txt"]).isSome = true ∧
    (g [name, "requirements-dev.txt"]).isSome = true ∧
    (g [name, "README.md"]).isSome = true ∧
    (tests = true → g [name, "tests"] = some Entry.dir ∧
      (g [name, "tests", "__init__.py"]).isSome = true) := by
  unfold scaffold at h
  cases hmk : mkdir_exist_ok fs [name] with
  | error e => rw [hmk] at h; exact absurd h (by simp)
  | ok fs1 =>
    rw [hmk] at h
    simp only [] at h
    have h1 : fs1 [name] = some Entry.dir := mkdir_ok_self fs [name] fs1 hmk
    cases tests with
    | false =>
      rw [if_neg (by decide)] at h
      injection h with hg
      rw [← hg]
      refine ⟨?_, ?_, ?_, ?_, ?_⟩
      · rw [create_file_other _ _ _ _ _ (ne_of_length_ne (by simp)),
          create_file_other _ _ _ _ _ (ne_of_length_ne (by simp)),
          touch_other _ _ _ (ne_of_length_ne (by simp))]
        exact h1
      · rw [create_file_other _ _ _ _ _ (pair_ne_of_snd (by decide)),
          create_file_other _ _ _ _ _ (pair_ne_of_snd (by decide))]
        exact touch_self_isSome fs1 [name, "requirements.txt"]
      · rw [create_file_other _ _ _ _ _ (pair_ne_of_snd (by decide))]
        exact create_file_self_isSome _ _ _ _ (by decide)
      · exact create_file_self_isSome _ _ _ _ (readme_nonempty name)
      · intro hfalse; exact absurd hfalse (by decide)
    | true =>
      rw [if_pos rfl] at h
      cases hmk2 : mkdir_exist_ok
          (create_file (create_file (touch fs1 [name, "requirements.txt"])
            [name] "requirements-dev.txt" "pre-commit")
            [name] "README.md" ("# " ++ name ++ "\n")) [name, "tests"] with
      | error e => rw [hmk2] at h; exact absurd h (by simp)
      | ok fs5 =>
        rw [hmk2] at h
        injection h with hg
        rw [← hg]
        have hA1 : (create_file (create_file (touch fs1 [name, "requirements.txt"])
            [name] "requirements-dev.txt" "pre-commit")
            [name] "README.md" ("# " ++ name ++ "\n")) [name] = some Entry.dir := by
          rw [create_file_other _ _ _ _ _ (ne_of_length_ne (by simp)),
            create_file_other _ _ _ _ _ (ne_of_length_ne (by simp)),
            touch_other _ _ _ (ne_of_length_ne (by simp))]
          exact h1
        have hA2 : ((create_file (create_file (touch fs1 [name, "requirements.txt"])
            [name] "requirements-dev.txt" "pre-commit")
            [name] "README.md" ("# " ++ name ++ "\n")) [name, "requirements.txt"]).isSome = true := by
          rw [create_file_other _ _ _ _ _ (pair_ne_of_snd (by decide)),
            create_file_other _ _ _ _ _ (pair_ne_of_snd (by decide))]
          exact touch_self_isSome fs1 [name, "requirements.txt"]
        have hA3 : ((create_file (create_file (touch fs1 [name, "requirements.txt"])
            [name] "requirements-dev.txt" "pre-commit")
            [name] "README.md" ("# " ++ name ++ "\n")) [name, "requirements-dev.txt"]).isSome = true := by
          rw [create_file_other _ _ _ _ _ (pair_ne_of_snd (by decide))]
          exact create_file_self_isSome _ _ _ _ (by decide)
        have hA4 : ((create_file (create_file (touch fs1 [name, "requirements.txt"])
            [name] "requirements-dev.txt" "pre-commit")
            [name] "README.md" ("# " ++ name ++ "\n")) [name, "README.md"]).isSome = true :=
          create_file_self_isSome _ _ _ _ (readme_nonempty name)
        have keep5 : ∀ q e, (create_file (create_file (touch fs1 [name, "requirements.txt"])
            [name] "requirements-dev.txt" "pre-commit")
            [name] "README.md" ("# " ++ name ++ "\n")) q = some e → fs5 q = some e :=
          fun q e hq => mkdir_keep _ _ _ hmk2 q e hq
        have h5dir : fs5 [name, "tests"] = some Entry.dir := mkdir_ok_self _ _ _ hmk2
        refine ⟨?_, ?_, ?_, ?_, ?_⟩
        · rw [touch_other _ _ _ (ne_of_length_ne (by simp))]
          exact keep5 _ _ hA1
        · rw [touch_other _ _ _ (ne_of_length_ne (by simp))]
          obtain ⟨e, he⟩ := Option.isSome_iff_exists.mp hA2
          rw [keep5 _ _ he]; rfl
        · rw [touch_other _ _ _ (ne_of_length_ne (by simp))]
          obtain ⟨e, he⟩ := Option.isSome_iff_exists.mp hA3
          rw [keep5 _ _ he]; rfl
        · rw [touch_other _ _ _ (ne_of_length_ne (by simp))]
          obtain ⟨e, he⟩ := Option.isSome_iff_exists.mp hA4
          rw [keep5 _ _ he]; rfl
        · intro _
          refine ⟨?_, touch_self_isSome fs5 [name, "tests", "__init__.py"]⟩
          rw [touch_other _ _ _ (ne_of_length_ne (by simp))]
          exact h5dir

theorem scaffold_fixed (name : String) (tests : Bool) (g : FS)
    (h1 : g [name] = some Entry.dir)
    (h2 : (g [name, "requirements.txt"]).isSome = true)
    (h3 : (g [name, "requirements-dev.txt"]).isSome = true)
    (h4 : (g [name, "README.md"]).isSome = true)
    (h5 : tests = true → g [name, "tests"] = some Entry.dir ∧
      (g [name, "tests", "__init__.py"]).isSome = true) :
    scaffold name tests g = Except.ok g := by
  unfold scaffold
  rw [mkdir_ok_of_dir g [name] h1]
  simp only []
  rw [touch_of_some g [name, "requirements.txt"] h2,
    create_file_of_isSome g [name] "requirements-dev.txt" "pre-commit" h3,
    create_file_of_isSome g [name] "README.md" ("# " ++ name ++ "\n") h4]
  cases tests with
  | false => rw [if_neg (by decide)]
  | true =>
    rw [if_pos rfl, mkdir_ok_of_dir g [name, "tests"] (h5 rfl).1]
    simp only []
    rw [touch_of_some g [name, "tests", "__init__.py"] (h5 rfl).2]

/-- C3: the scaffolder is idempotent -- every write is create-if-absent
and never overwrites existing content: a second run on the result of a
successful run returns that very filesystem, and any file content
present before the first run is still there after it. -/
theorem claim_C3 (name : String) (tests : Bool) (fs g : FS)
    (h : scaffold name tests fs = Except.ok g) :
    scaffold name tests g = Except.ok g ∧
    ∀ q c, fs q = some (Entry.file c) → g q = some (Entry.file c) := by
  obtain ⟨h1, h2, h3, h4, h5⟩ := scaffold_ok_state name tests fs g h
  refine ⟨scaffold_fixed name tests g h1 h2 h3 h4 h5, ?_⟩
  intro q c hq
  unfold scaffold at h
  cases hmk : mkdir_exist_ok fs [name] with
  | error e => rw [hmk] at h; exact absurd h (by simp)
  | ok fs1 =>
    rw [hmk] at h
    simp only [] at h
    have k1 : fs1 q = some (Entry.file c) := mkdir_keep fs [name] fs1 hmk q _ hq
    have k2 : touch fs1 [name, "requirements.txt"] q = some (Entry.file c) :=
      touch_keep _ _ _ _ k1
    have k3 := create_file_keep _ [name] "requirements-dev.txt" "pre-commit" q _ k2
    have k4 := create_file_keep _ [name] "README.md" ("# " ++ name ++ "\n") q _ k3
    cases tests with
    | false =>
      rw [if_neg (by decide)] at h
      injection h with hg
      rw [← hg]
      exact k4
    | true =>
      rw [if_pos rfl] at h
      cases hmk2 : mkdir_exist_ok
          (create_file (create_file (touch fs1 [name, "requirements.txt"])
            [name] "requirements-dev.txt" "pre-commit")
            [name] "README.md" ("# " ++ name ++ "\n")) [name, "tests"] with
      | error e => rw [hmk2] at h; exact absurd h (by simp)
      | ok fs5 =>
        rw [hmk2] at h
        injection h with hg
        rw [← hg]
        exact touch_keep _ _ _ _ (mkdir_keep _ _ _ hmk2 q _ k4)

/-- Witness for C3: scaffolding myproj twice from the empty directory
returns the same filesystem both times. -/
theorem claim_C3_witness :
    scaffold "myproj" false emptyFS = Except.ok demoG ∧
    scaffold "myproj" false demoG = Except.ok demoG :=
  ⟨rfl, (claim_C3 "myproj" false emptyFS demoG rfl).1⟩

/-- The wget-appending loop of main as filter and map: appending one
fetch per absent config file, in list order, equals mapping over the
filter of absent files. -/
theorem foldl_fetch_eq (folder : List String) (fs : FS) :
    ∀ (files : List String) (acc : List (List Arg)),
      files.foldl
        (fun acc filename =>
          if (fs (folder ++ [filename])).isSome then acc
          else acc ++ [wgetCmd folder filename]) acc
      = acc ++ (files.filter
          (fun filename => !(fs (folder ++ [filename])).isSome)).map
            (wgetCmd folder) := by
  intro files
  induction files with
  | nil => intro acc; simp
  | cons f files ih =>
    intro acc
    cases hf : (fs (folder ++ [f])).isSome with
    | true =>
      have hne : ¬ fs (folder ++ [f]) = none := by
        intro e; rw [e] at hf; simp at hf
      rw [List.foldl_cons, if_pos hf, ih acc]
      simp [List.filter_cons, hf, hne]
    | false =>
      have he : fs (folder ++ [f]) = none := by
        cases hcase : fs (folder ++ [f]) with
        | none => rfl
        | some e => rw [hcase] at hf; simp at hf
      rw [List.foldl_cons, if_neg (by simp [hf]), ih (acc ++ [wgetCmd folder f])]
      simp [List.filter_cons, hf, he]

/-- Structure of the built command list: fetches for the absent config
files in canonical order, then init when the input was not a URL, then
add and commit, then push when it was. -/
theorem buildCommands_struct (isUrl : Bool) (folder : List String) (fs : FS) :
    buildCommands isUrl folder fs =
      (CONFIG_FILES.filter
        (fun filename => !(fs (folder ++ [filename])).isSome)).map (wgetCmd folder)
      ++ (if isUrl then [] else [initCmd folder])
      ++ [addCmd folder, commitCmd folder]
      ++ (if isUrl then [pushCmd folder] else []) := by
  unfold buildCommands
  rw [foldl_fetch_eq folder fs CONFIG_FILES []]
  cases isUrl <;> simp

/-- Defining equation of the runner on a cons. -/
theorem run_commands_cons (exec : List Arg → ProcBehavior) (c : List Arg)
    (cs : List (List Arg)) :
    run_commands exec (c :: cs) =
      match runOne 60 (exec c) with
      | CmdOutcome.ok =>
        { attempted := c :: (run_commands exec cs).attempted,
          printed := (run_commands exec cs).printed,
          exitCode := (run_commands exec cs).exitCode }
      | CmdOutcome.notFound =>
        { attempted := [c], printed := [Diag.notFound c], exitCode := some 0 }
      | CmdOutcome.nonSuccess =>
        { attempted := [c], printed := [Diag.nonSuccess c], exitCode := some 0 }
      | CmdOutcome.timedOut =>
        { attempted := [c], printed := [Diag.timedOut c], exitCode := some 0 } := rfl

/-- When every command reports success the runner starts all of them,
prints nothing, and returns without calling sys.exit. -/
theorem run_commands_ok_all (exec : List Arg → ProcBehavior) :
    ∀ cmds : List (List Arg),
      (∀ c ∈ cmds, runOne 60 (exec c) = CmdOutcome.ok) →
      run_commands exec cmds = { attempted := cmds, printed := [], exitCode := none } := by
  intro cmds
  induction cmds with
  | nil => intro _; rfl
  | cons c cs ih =>
    intro h
    have hc : runOne 60 (exec c) = CmdOutcome.ok := h c (by simp)
    rw [run_commands_cons, hc]
    simp only []
    rw [ih (fun c2 hc2 => h c2 (by simp [hc2]))]

/-- The failure behavior of the runner: with successes before a failing
command, the runner starts exactly the prefix plus the failing command,
prints one diagnostic naming that command, and calls sys.exit (status
0); nothing after the failing command is started. -/
theorem run_commands_fail (exec : List Arg → ProcBehavior) :
    ∀ (pre : List (List Arg)) (c : List Arg) (post : List (List Arg)),
      (∀ p ∈ pre, runOne 60 (exec p) = CmdOutcome.ok) →
      ¬ runOne 60 (exec c) = CmdOutcome.ok →
      (run_commands exec (pre ++ c :: post)).attempted = pre ++ [c] ∧
      (∃ d, (run_commands exec (pre ++ c :: post)).printed = [d] ∧ d.cmd = c) ∧
      (run_commands exec (pre ++ c :: post)).exitCode = some 0 := by
  intro pre
  induction pre with
  | nil =>
    intro c post _ hc
    rw [List.nil_append, run_commands_cons]
    cases ho : runOne 60 (exec c) with
    | ok => exact absurd ho hc
    | notFound => exact ⟨rfl, ⟨Diag.notFound c, rfl, rfl⟩, rfl⟩
    | nonSuccess => exact ⟨rfl, ⟨Diag.nonSuccess c, rfl, rfl⟩, rfl⟩
    | timedOut => exact ⟨rfl, ⟨Diag.timedOut c, rfl, rfl⟩, rfl⟩
  | cons p pre ih =>
    intro c post hpre hc
    have hp : runOne 60 (exec p) = CmdOutcome.ok := hpre p (by simp)
    rw [List.cons_append, run_commands_cons, hp]
    simp only []
    obtain ⟨h1, ⟨d, hd1, hd2⟩, h3⟩ := ih c post (fun x hx => hpre x (by simp [hx])) hc
    exact ⟨by rw [h1]; rfl, ⟨d, hd1, hd2⟩, h3⟩

/-- C5: for every failing command -- executable not found, non-success
status, or timeout past the 60-unit limit -- with all earlier commands
succeeding, the runner prints one diagnostic naming the offending
command and exits the process, so no later command in the list is ever
started (a failed commit means a following push never runs). -/
theorem claim_C5 (exec : List Arg → ProcBehavior) (pre : List (List Arg))
    (c : List Arg) (post : List (List Arg))
    (hpre : ∀ p ∈ pre, runOne 60 (exec p) = CmdOutcome.ok)
    (hc : ¬ runOne 60 (exec c) = CmdOutcome.ok) :
    (run_commands exec (pre ++ c :: post)).attempted = pre ++ [c] ∧
    (∃ d, (run_commands exec (pre ++ c :: post)).printed = [d] ∧ d.cmd = c) ∧
    (run_commands exec (pre ++ c :: post)).exitCode = some 0 :=
  run_commands_fail exec pre c post hpre hc

/-- Witness for C5: add succeeds, commit fails, push is never started. -/
theorem claim_C5_witness :
    (run_commands commitFailExec
      ([addCmd ["myproj"]] ++ commitCmd ["myproj"] :: [pushCmd ["myproj"]])).attempted
      = [addCmd ["myproj"]] ++ [commitCmd ["myproj"]] ∧
    (run_commands commitFailExec
      ([addCmd ["myproj"]] ++ commitCmd ["myproj"] :: [pushCmd ["myproj"]])).exitCode
      = some 0 ∧
    (run_commands commitFailExec
      ([addCmd ["myproj"]] ++ commitCmd ["myproj"] :: [pushCmd ["myproj"]])).printed
      = [Diag.nonSuccess (commitCmd ["myproj"])] :=
  ⟨(claim_C5 commitFailExec [addCmd ["myproj"]] (commitCmd ["myproj"])
      [pushCmd ["myproj"]] (by decide) (by decide)).1,
   (claim_C5 commitFailExec [addCmd ["myproj"]] (commitCmd ["myproj"])
      [pushCmd ["myproj"]] (by decide) (by decide)).2.2,
   by decide⟩

/-- C6 (amended): on any command failure the process exits immediately
through sys.exit -- which, called with no argument, yields exit status
0, not a non-zero status -- after printing a diagnostic; when every
command succeeds the runner starts them all, prints nothing and returns
normally. -/
theorem claim_C6 (exec : List Arg → ProcBehavior) (cmds : List (List Arg)) :
    ((∀ c ∈ cmds, runOne 60 (exec c) = CmdOutcome.ok) →
      run_commands exec cmds = { attempted := cmds, printed := [], exitCode := none }) ∧
    (∀ pre c post, cmds = pre ++ c :: post →
      (∀ p ∈ pre, runOne 60 (exec p) = CmdOutcome.ok) →
      ¬ runOne 60 (exec c) = CmdOutcome.ok →
      (run_commands exec cmds).exitCode = some 0 ∧
      ¬ (run_commands exec cmds).printed = []) := by
  constructor
  · exact run_commands_ok_all exec cmds
  · intro pre c post hsplit hpre hc
    subst hsplit
    obtain ⟨h1, ⟨d, hd1, _⟩, h3⟩ := run_commands_fail exec pre c post hpre hc
    refine ⟨h3, ?_⟩
    rw [hd1]
    simp

/-- Counterexample for C6 as stated: a failing command terminates the
process with exit status 0 (sys.exit with no argument), not a non-zero
status, though a diagnostic is printed. -/
theorem claim_C6_counterexample :
    (run_commands failExec [addCmd ["myproj"]]).exitCode = some 0 ∧
    ¬ (run_commands failExec [addCmd ["myproj"]]).printed = [] := by decide

/-- Witness for C6: both branches of the amended claim at concrete
inputs. -/
theorem claim_C6_witness :
    run_commands okExec [addCmd ["myproj"], commitCmd ["myproj"]]
      = { attempted := [addCmd ["myproj"], commitCmd ["myproj"]],
          printed := [], exitCode := none } ∧
    ((run_commands failExec [addCmd ["myproj"]]).exitCode = some 0 ∧
      ¬ (run_commands failExec [addCmd ["myproj"]]).printed = []) :=
  ⟨(claim_C6 okExec [addCmd ["myproj"], commitCmd ["myproj"]]).1 (by decide),
   (claim_C6 failExec [addCmd ["myproj"]]).2 [] (addCmd ["myproj"]) [] rfl
     (by decide) (by decide)⟩

/-- main when the input is not classified as a URL: no clone, the input
itself is the project name. -/
theorem main_none_eq (name : String) (tests : Bool) (fs0 : FS)
    (h : is_repository_url name = none) :
    CreateProject.main name tests fs0 =
      (scaffold name tests fs0).map (fun fs5 =>
        { cloneCommands := [], projectName := name, projectFolder := [name],
          fs := fs5, commands := buildCommands false [name] fs5 }) := by
  simp only [CreateProject.main, h]
  rfl

/-- main when the input is classified as a URL: one clone command for
the original input, then the parsed repository name everywhere. -/
theorem main_some_eq (name rn : String) (tests : Bool) (fs0 : FS)
    (h : is_repository_url name = some rn) :
    CreateProject.main name tests fs0 =
      (scaffold rn tests fs0).map (fun fs5 =>
        { cloneCommands := [[Arg.s "git", Arg.s "clone", Arg.s name]],
          projectName := rn, projectFolder := [rn],
          fs := fs5, commands := buildCommands true [rn] fs5 }) := by
  simp only [CreateProject.main, h]
  rfl

/-- The scaffolder writes only paths inside the project folder: any
path whose entry changed starts with the project name. -/
theorem scaffold_writes (name : String) (tests : Bool) (fs g : FS)
    (h : scaffold name tests fs = Except.ok g) :
    ∀ q, ¬ g q = fs q → q.head? = some name := by
  intro q hq
  by_cases hqh : q.head? = some name
  · exact hqh
  · exfalso
    apply hq
    have hq1 : q ≠ [name] := by intro e; rw [e] at hqh; exact hqh rfl
    have hq2 : q ≠ [name, "requirements.txt"] := by
      intro e; rw [e] at hqh; exact hqh rfl
    have hq3 : q ≠ [name, "requirements-dev.txt"] := by
      intro e; rw [e] at hqh; exact hqh rfl
    have hq4 : q ≠ [name, "README.md"] := by
      intro e; rw [e] at hqh; exact hqh rfl
    have hq5 : q ≠ [name, "tests"] := by intro e; rw [e] at hqh; exact hqh rfl
    have hq6 : q ≠ [name, "tests", "__init__.py"] := by
      intro e; rw [e] at hqh; exact hqh rfl
    unfold scaffold at h
    cases hmk : mkdir_exist_ok fs [name] with
    | error e => rw [hmk] at h; exact absurd h (by simp)
    | ok fs1 =>
      rw [hmk] at h
      simp only [] at h
      have k1 : fs1 q = fs q := mkdir_ok_other fs [name] fs1 hmk q hq1
      have k2 : touch fs1 [name, "requirements.txt"] q = fs q := by
        rw [touch_other _ _ _ hq2]; exact k1
      have k3 : create_file (touch fs1 [name, "requirements.txt"])
          [name] "requirements-dev.txt" "pre-commit" q = fs q := by
        rw [create_file_other _ _ _ _ _ hq3]; exact k2
      have k4 : create_file (create_file (touch fs1 [name, "requirements.txt"])
          [name] "requirements-dev.txt" "pre-commit")
          [name] "README.md" ("# " ++ name ++ "\n") q = fs q := by
        rw [create_file_other _ _ _ _ _ hq4]; exact k3
      cases tests with
      | false =>
        rw [if_neg (by decide)] at h
        injection h with hg
        rw [← hg]
        exact k4
      | true =>
        rw [if_pos rfl] at h
        cases hmk2 : mkdir_exist_ok
            (create_file (create_file (touch fs1 [name, "requirements.txt"])
              [name] "requirements-dev.txt" "pre-commit")
              [name] "README.md" ("# " ++ name ++ "\n")) [name, "tests"] with
        | error e => rw [hmk2] at h; exact absurd h (by simp)
        | ok fs5 =>
          rw [hmk2] at h
          injection h with hg
          rw [← hg, touch_other _ _ _ hq6, mkdir_ok_other _ _ _ hmk2 q hq5]
          exact k4

/-- C4: the built command list is the fetch commands for exactly the
config files absent from the project folder, in the canonical
CONFIG_FILES order, then the init command iff the input was not a URL,
then stage-all and commit with message Initial commit, then the push
command iff the input was a URL. -/
theorem claim_C4 (isUrl : Bool) (folder : List String) (fs : FS) :
    buildCommands isUrl folder fs =
      (CONFIG_FILES.filter
        (fun filename => !(fs (folder ++ [filename])).isSome)).map (wgetCmd folder)
      ++ (if isUrl then [] else [initCmd folder])
      ++ [addCmd folder, commitCmd folder]
      ++ (if isUrl then [pushCmd folder] else []) :=
  buildCommands_struct isUrl folder fs

/-- C2: an input without the repository-URL shape is classified as a
plain name, and main then issues no clone and uses the input verbatim
as project name: the project folder is the singleton path of the input,
every filesystem write stays under it, and every path argument in the
built commands is it. -/
theorem claim_C2 (s : String) (tests : Bool) (fs0 : FS) (hnm : ¬ SpecMatches s) :
    is_repository_url s = none ∧
    ∀ r, CreateProject.main s tests fs0 = Except.ok r →
      r.projectName = s ∧ r.projectFolder = [s] ∧ r.cloneCommands = [] ∧
      (∀ q, ¬ r.fs q = fs0 q → q.head? = some s) ∧
      (∀ cmd ∈ r.commands, ∀ pth, Arg.p pth ∈ cmd → pth = [s]) := by
  have hnone : is_repository_url s = none := by
    cases hopt : is_repository_url s with
    | none => rfl
    | some g => exact absurd (is_repository_url_some_specMatches s g hopt) hnm
  refine ⟨hnone, ?_⟩
  intro r hr
  rw [main_none_eq s tests fs0 hnone] at hr
  cases hsc : scaffold s tests fs0 with
  | error e => rw [hsc] at hr; exact absurd hr (by simp [Except.map])
  | ok fs5 =>
    rw [hsc] at hr
    simp only [Except.map] at hr
    injection hr with hrr
    rw [← hrr]
    refine ⟨rfl, rfl, rfl, ?_, ?_⟩
    · intro q hq
      exact scaffold_writes s tests fs0 fs5 hsc q hq
    · intro cmd hcmd pth hpth
      rw [buildCommands_struct] at hcmd
      simp only [Bool.false_eq_true, if_false, List.mem_append, List.mem_map,
        List.mem_filter, List.mem_singleton, List.mem_cons,
        List.not_mem_nil, or_false] at hcmd
      rcases hcmd with ⟨⟨f, _, hf⟩ | hini⟩ | hadd | hcommit
      · rw [← hf] at hpth
        simp only [wgetCmd, List.mem_cons, List.not_mem_nil, or_false] at hpth
        rcases hpth with h | h | h | h
        · exact absurd h (by simp)
        · exact absurd h (by simp)
        · injection h
        · exact absurd h (by simp)
      · rw [hini] at hpth
        simp only [initCmd, List.mem_cons, List.not_mem_nil, or_false] at hpth
        rcases hpth with h | h | h | h | h | h
        · exact absurd h (by simp)
        · exact absurd h (by simp)
        · injection h
        · exact absurd h (by simp)
        · exact absurd h (by simp)
        · exact absurd h (by simp)
      · rw [hadd] at hpth
        simp only [addCmd, List.mem_cons, List.not_mem_nil, or_false] at hpth
        rcases hpth with h | h | h | h | h
        · exact absurd h (by simp)
        · exact absurd h (by simp)
        · injection h
        · exact absurd h (by simp)
        · exact absurd h (by simp)
      · rw [hcommit] at hpth
        simp only [commitCmd, List.mem_cons, List.not_mem_nil, or_false] at hpth
        rcases hpth with h | h | h | h | h | h
        · exact absurd h (by simp)
        · exact absurd h (by simp)
        · injection h
        · exact absurd h (by simp)
        · exact absurd h (by simp)
        · exact absurd h (by simp)

/-- The last element of a list ending in a singleton append. -/
theorem getLast_append_singleton (X : List (List Arg)) (a : List Arg) :
    (X ++ [a]).getLast? = some a :=
  List.getLast?_concat X

set_option maxRecDepth 8000 in
/-- C7: when the input is not a repository URL the built list holds the
repository-initialization command, running the version-control tool on
the project folder as init with the bare literal token "b" directly
before "master" (a plain positional argument, not a spelled flag), and
no other command of the list carries an init token. -/
theorem claim_C7 (name : String) (tests : Bool) (fs0 : FS) (r : MainResult)
    (hurl : is_repository_url name = none)
    (hr : CreateProject.main name tests fs0 = Except.ok r) :
    initCmd r.projectFolder ∈ r.commands ∧
    initCmd r.projectFolder =
      [Arg.s "git", Arg.s "-C", Arg.p r.projectFolder, Arg.s "init", Arg.s "b",
        Arg.s "master"] ∧
    ∀ cmd ∈ r.commands, Arg.s "init" ∈ cmd → cmd = initCmd r.projectFolder := by
  rw [main_none_eq name tests fs0 hurl] at hr
  cases hsc : scaffold name tests fs0 with
  | error e => rw [hsc] at hr; exact absurd hr (by simp [Except.map])
  | ok fs5 =>
    rw [hsc] at hr
    simp only [Except.map] at hr
    injection hr with hrr
    have hpf : r.projectFolder = [name] := by rw [← hrr]
    have hcm : r.commands = buildCommands false [name] fs5 := by rw [← hrr]
    refine ⟨?_, ?_, ?_⟩
    · rw [hpf, hcm, buildCommands_struct]
      exact List.mem_append.mpr (Or.inl (List.mem_append.mpr (Or.inl
        (List.mem_append.mpr (Or.inr (List.mem_singleton.mpr rfl))))))
    · rw [hpf]
      rfl
    · intro cmd hcmd hinit
      rw [hpf]
      rw [hcm, buildCommands_struct] at hcmd
      simp only [Bool.false_eq_true, if_false, List.mem_append, List.mem_map,
        List.mem_filter, List.mem_singleton, List.mem_cons,
        List.not_mem_nil, or_false] at hcmd
      rcases hcmd with ⟨⟨f, _, hf⟩ | hini⟩ | hadd | hcommit
      · exfalso
        rw [← hf] at hinit
        simp only [wgetCmd, List.mem_cons, List.not_mem_nil, or_false] at hinit
        rcases hinit with h | h | h | h
        · exact absurd h (by simp)
        · exact absurd h (by simp)
        · exact absurd h (by simp)
        · injection h with h2
          have hl := congrArg String.length h2
          rw [String.length_append] at hl
          have hu : 100 ≤ url.length := by decide
          have hi : String.length "init" = 4 := rfl
          omega
      · exact hini
      · exfalso
        rw [hadd] at hinit
        simp [addCmd] at hinit
      · exfalso
        rw [hcommit] at hinit
        simp [commitCmd] at hinit

/-- C8: when the input is a repository URL, main first issues a clone
of the original URL, replaces the project name by the parsed repository
name and uses it as the directory for every subsequent step (all
filesystem writes and every path argument of every command), omits the
init command, and the command list ends with the push command. -/
theorem claim_C8 (name rn : String) (tests : Bool) (fs0 : FS) (r : MainResult)
    (hurl : is_repository_url name = some rn)
    (hr : CreateProject.main name tests fs0 = Except.ok r) :
    r.cloneCommands = [[Arg.s "git", Arg.s "clone", Arg.s name]] ∧
    r.projectName = rn ∧
    r.projectFolder = [rn] ∧
    (∀ q, ¬ r.fs q = fs0 q → q.head? = some rn) ∧
    (∀ cmd ∈ r.commands, ∀ pth, Arg.p pth ∈ cmd → pth = [rn]) ∧
    r.commands =
      (CONFIG_FILES.filter
        (fun filename => !(r.fs ([rn] ++ [filename])).isSome)).map (wgetCmd [rn])
      ++ [addCmd [rn], commitCmd [rn]] ++ [pushCmd [rn]] ∧
    ¬ initCmd [rn] ∈ r.commands ∧
    r.commands.getLast? = some (pushCmd [rn]) := by
  rw [main_some_eq name rn tests fs0 hurl] at hr
  cases hsc : scaffold rn tests fs0 with
  | error e => rw [hsc] at hr; exact absurd hr (by simp [Except.map])
  | ok fs5 =>
    rw [hsc] at hr
    simp only [Except.map] at hr
    injection hr with hrr
    have hclone : r.cloneCommands = [[Arg.s "git", Arg.s "clone", Arg.s name]] := by
      rw [← hrr]
    have hpn : r.projectName = rn := by rw [← hrr]
    have hpf : r.projectFolder = [rn] := by rw [← hrr]
    have hfs : r.fs = fs5 := by rw [← hrr]
    have hcm : r.commands = buildCommands true [rn] fs5 := by rw [← hrr]
    have hcmds : buildCommands true [rn] fs5 =
        (CONFIG_FILES.filter
          (fun filename => !(fs5 ([rn] ++ [filename])).isSome)).map (wgetCmd [rn])
        ++ [addCmd [rn], commitCmd [rn]] ++ [pushCmd [rn]] := by
      rw [buildCommands_struct]
      simp
    refine ⟨hclone, hpn, hpf, ?_, ?_, ?_, ?_, ?_⟩
    · intro q hq
      rw [hfs] at hq
      exact scaffold_writes rn tests fs0 fs5 hsc q hq
    · intro cmd hcmd pth hpth
      rw [hcm, hcmds] at hcmd
      simp only [List.mem_append, List.mem_map, List.mem_filter, List.mem_cons,
        List.not_mem_nil, or_false] at hcmd
      rcases hcmd with ⟨⟨f, _, hf⟩ | hadd | hcommit⟩ | hpush
      · rw [← hf] at hpth
        simp only [wgetCmd, List.mem_cons, List.not_mem_nil, or_false] at hpth
        rcases hpth with h | h | h | h
        · exact absurd h (by simp)
        · exact absurd h (by simp)
        · injection h
        · exact absurd h (by simp)
      · rw [hadd] at hpth
        simp only [addCmd, List.mem_cons, List.not_mem_nil, or_false] at hpth
        rcases hpth with h | h | h | h | h
        · exact absurd h (by simp)
        · exact absurd h (by simp)
        · injection h
        · exact absurd h (by simp)
        · exact absurd h (by simp)
      · rw [hcommit] at hpth
        simp only [commitCmd, List.mem_cons, List.not_mem_nil, or_false] at hpth
        rcases hpth with h | h | h | h | h | h
        · exact absurd h (by simp)
        · exact absurd h (by simp)
        · injection h
        · exact absurd h (by simp)
        · exact absurd h (by simp)
        · exact absurd h (by simp)
      · rw [hpush] at hpth
        simp only [pushCmd, List.mem_cons, List.not_mem_nil, or_false] at hpth
        rcases hpth with h | h | h | h
        · exact absurd h (by simp)
        · exact absurd h (by simp)
        · injection h
        · exact absurd h (by simp)
    · rw [hcm, hcmds, hfs]
    · rw [hcm, hcmds]
      intro hin
      simp only [List.mem_append, List.mem_map, List.mem_filter, List.mem_cons,
        List.not_mem_nil, or_false] at hin
      rcases hin with ⟨⟨f, _, hf⟩ | h | h⟩ | h
      · simp [wgetCmd, initCmd] at hf
      · simp [initCmd, addCmd] at h
      · simp [initCmd, commitCmd] at h
      · simp [initCmd, pushCmd] at h
    · rw [hcm, hcmds]
      exact getLast_append_singleton _ _

/-- Witness for C2: an unsupported protocol classifies as a plain name. -/
theorem claim_C2_witness :
    ¬ SpecMatches "ftp://github.com/user/repo.git" ∧
    is_repository_url "ftp://github.com/user/repo.git" = none :=
  have hnm : ¬ SpecMatches "ftp://github.com/user/repo.git" := fun hm => by
    obtain ⟨g, hg⟩ := specMatches_some _ hm
    rw [show is_repository_url "ftp://github.com/user/repo.git" = none from by decide]
      at hg
    exact Option.noConfusion hg
  ⟨hnm, (claim_C2 "ftp://github.com/user/repo.git" false emptyFS hnm).1⟩

/-- Witness for C7: the concrete init command of scenario 1, with the
bare token "b" before "master". -/
theorem claim_C7_witness :
    initCmd demoResult.projectFolder ∈ demoResult.commands ∧
    initCmd demoResult.projectFolder =
      [Arg.s "git", Arg.s "-C", Arg.p demoResult.projectFolder, Arg.s "init",
        Arg.s "b", Arg.s "master"] :=
  ⟨(claim_C7 "myproj" false emptyFS demoResult rfl rfl).1,
   (claim_C7 "myproj" false emptyFS demoResult rfl rfl).2.1⟩

/-- Witness for C8: scenario 3 concretely -- clone first, repo as the
directory everywhere, no init, push last. -/
theorem claim_C8_witness :
    demoUrlResult.cloneCommands
      = [[Arg.s "git", Arg.s "clone", Arg.s "git@github.com:user/repo.git"]] ∧
    demoUrlResult.projectName = "repo" ∧
    demoUrlResult.projectFolder = ["repo"] ∧
    ¬ initCmd ["repo"] ∈ demoUrlResult.commands ∧
    demoUrlResult.commands.getLast? = some (pushCmd ["repo"]) :=
  ⟨(claim_C8 "git@github.com:user/repo.git" "repo" false emptyFS demoUrlResult
      rfl rfl).1,
   (claim_C8 "git@github.com:user/repo.git" "repo" false emptyFS demoUrlResult
      rfl rfl).2.1,
   (claim_C8 "git@github.com:user/repo.git" "repo" false emptyFS demoUrlResult
      rfl rfl).2.2.1,
   (claim_C8 "git@github.com:user/repo.git" "repo" false emptyFS demoUrlResult
      rfl rfl).2.2.2.2.2.2.1,
   (claim_C8 "git@github.com:user/repo.git" "repo" false emptyFS demoUrlResult
      rfl rfl).2.2.2.2.2.2.2⟩

/-- C9: scenario 1 -- main on the plain name myproj with the tests flag
false and an empty working directory creates requirements.txt empty,
requirements-dev.txt with content pre-commit, README.md with content
"# myproj" and newline, no tests directory; the command list holds the
four fetch commands, init, add and commit, and no push; no clone is
issued. -/
theorem claim_C9 :
    ∃ r, CreateProject.main "myproj" false emptyFS = Except.ok r ∧
      r.fs ["myproj", "requirements.txt"] = some (Entry.file "") ∧
      r.fs ["myproj", "requirements-dev.txt"] = some (Entry.file "pre-commit") ∧
      r.fs ["myproj", "README.md"] = some (Entry.file "# myproj\n") ∧
      r.fs ["myproj", "tests"] = none ∧
      r.commands = [wgetCmd ["myproj"] ".flake8", wgetCmd ["myproj"] ".gitignore",
        wgetCmd ["myproj"] ".pre-commit-config.yaml",
        wgetCmd ["myproj"] "pyproject.toml",
        initCmd ["myproj"], addCmd ["myproj"], commitCmd ["myproj"]] ∧
      ¬ pushCmd ["myproj"] ∈ r.commands ∧
      r.cloneCommands = [] :=
  ⟨demoResult, rfl, rfl, rfl, rfl, rfl, rfl, by decide, rfl⟩
